import Mathlib

/-!
# A model of the `ChunkedVec` container

This file is a shallow embedding of the `ChunkedVec` growable container
(a vector storing its elements in fixed-size, independently allocated
chunks) and proofs about its operations: `push`, `resize`, the
order-preserving `remove`, the O(1) `swap_remove`, checked and panicking
element access, the capacity queries, and the owning iterator `IntoIter`.

Modelling conventions:
* An element slot (`MaybeUninit<T>`) is an `Option T`: `some v` models
  storage holding the bit pattern of the value `v` (live or moved-from),
  `none` models storage explicitly set to uninitialized.  Raw reads and
  copies (`ptr::read`, `ptr::copy`) duplicate the bit pattern and leave
  the source slot unchanged, exactly as in the code.
* A chunk is a `List (Option T)`; well-formed chunks have length `N`.
  The chunk list is a `List (List (Option T))` together with a `cap`
  field modelling the backing `Vec`'s capacity, measured in chunks.
  The exact amortized growth policy of `Vec` is irrelevant to the
  statements proved here (only `cap ≥ number of chunks` matters); the
  model grows the capacity to `max (2*cap) needed` when full and keeps
  it unchanged on `truncate`, as `Vec` guarantees.
* Machine integers (`usize`) are `Nat`; the quantities involved (indices
  and lengths of an existing container) can never overflow `usize`, so no
  wrap-around modelling is needed.
* Panics are modelled with `Except String`, carrying the exact panic
  message the code formats; reading an out-of-range or uninitialized
  slot through the total read function yields `none`.
* Operations that destroy elements in place (`drop_in_place`,
  `assume_init_drop`) return the list of destroyed slot contents, in
  destruction order, so "destroys exactly these elements exactly once"
  becomes a statement about that list.
-/

set_option linter.unusedVariables false

/-- Read the slot at chunk index `c`, offset `o`.  Out-of-range reads
yield `none` (uninitialized storage). -/
def getSlot {T : Type} (data : List (List (Option T))) (c o : Nat) : Option T :=
  (data.getD c []).getD o none

/-- Write the slot at chunk index `c`, offset `o`.  Out-of-range writes
are a no-op (the code only ever writes in range; see the well-formedness
invariants below). -/
def setSlot {T : Type} (data : List (List (Option T))) (c o : Nat) (v : Option T) :
    List (List (Option T)) :=
  data.set c ((data.getD c []).set o v)

/-- A chunk of `N` slots whose contents are given pointwise by `f`. -/
def mkChunk {T : Type} (N : Nat) (f : Nat → Option T) : List (Option T) :=
  (List.range N).map f

/-- The `ChunkedVec<T, N>` container: the list of chunks (`data`,
corresponding to `Vec<Chunk<T, N>>`), the capacity of that backing
vector counted in chunks (`cap`), and the number of live elements
(`len`).  Live elements occupy logical slots `0..len`, slot `i` living
in chunk `i / N` at offset `i % N`. -/
structure ChunkedVec (T : Type) (N : Nat) where
  data : List (List (Option T))
  cap : Nat
  len : Nat
deriving DecidableEq

/-- Modelled from the spec: `ChunkedVec::new` (its body is not under
`src/`) constructs the empty container — no chunks, `len = 0`; a fresh
`Vec` has capacity `0`. -/
def ChunkedVec.new (T : Type) (N : Nat) : ChunkedVec T N :=
  { data := [], cap := 0, len := 0 }

/-- Modelled from the spec: `create_new_chunk` (its body is not under
`src/`) allocates one chunk and initializes its first slot with `value`
(spec §4.3 push: "allocate exactly one new chunk (appended to the chunk
list) and initialize its first slot with `value`"); the other `N - 1`
slots are uninitialized. -/
def ChunkedVec.create_new_chunk {T : Type} (N : Nat) (value : T) : List (Option T) :=
  mkChunk N (fun j => if j = 0 then some value else none)

/-- Capacity update of the backing `Vec` on `Vec::push`: unchanged while
there is room, otherwise grown to at least the new length (the model
uses `max (2*cap) newLen`; only `cap ≥ length` is ever used). -/
def vecPushCap (cap newLen : Nat) : Nat :=
  if newLen ≤ cap then cap else max (2 * cap) newLen

/-- `ChunkedVec::push` (operations.rs).  Computes `(len / N, len % N)`;
if that chunk does not exist yet, appends a fresh chunk holding `value`
in its first slot, otherwise writes `value` into the existing slot; then
increments `len`.  The code asserts `offset == 0` in the new-chunk
branch; the assertion's premise implies its conclusion in every
reachable state (see the theorem for claim C10). -/
def ChunkedVec.push {T : Type} {N : Nat} (s : ChunkedVec T N) (value : T) : ChunkedVec T N :=
  let chunk_idx := s.len / N
  let offset := s.len % N
  if chunk_idx ≥ s.data.length then
    { data := s.data ++ [ChunkedVec.create_new_chunk N value],
      cap := vecPushCap s.cap (s.data.length + 1),
      len := s.len + 1 }
  else
    { data := setSlot s.data chunk_idx offset (some value),
      cap := s.cap,
      len := s.len + 1 }

/-- Push every element of `vs` in order (also the model of `Extend`,
which is repeated `push`). -/
def ChunkedVec.pushAll {T : Type} {N : Nat} (s : ChunkedVec T N) (vs : List T) : ChunkedVec T N :=
  vs.foldl ChunkedVec.push s

/-- The write loop of growing `resize`: for `k` logical indices starting
at `i`, write a clone of `value` into slot `(i / N, i % N)` (cloning is
value duplication). -/
def writeRange {T : Type} (N : Nat) (value : T) : Nat → Nat → List (List (Option T)) →
    List (List (Option T))
  | i, 0, data => data
  | i, k + 1, data => writeRange N value (i + 1) k (setSlot data (i / N) (i % N) (some value))

/-- `ChunkedVec::resize` (operations.rs).  Growing: bulk-extends the
chunk list to `(new_len + N - 1) / N` chunks of uninitialized slots,
then writes clones of `value` at logical indices `[len, new_len)`.
Shrinking: destroys the elements at `[new_len, len)` in place (the
returned list logs the destroyed slots in order) and truncates the
chunk list to `if new_len == 0 then 0 else (new_len + N - 1) / N`
chunks (`Vec::truncate` keeps the capacity).  Finally sets
`len = new_len`. -/
def ChunkedVec.resize {T : Type} {N : Nat} (s : ChunkedVec T N) (new_len : Nat) (value : T) :
    ChunkedVec T N × List (Option T) :=
  let old_len := s.len
  if new_len > old_len then
    let required_chunks := (new_len + N - 1) / N
    let data0 := if required_chunks > s.data.length then
        s.data ++ List.replicate (required_chunks - s.data.length) (mkChunk N (fun _ => none))
      else s.data
    let cap0 := if required_chunks > s.data.length then
        (if required_chunks ≤ s.cap then s.cap else max (2 * s.cap) required_chunks)
      else s.cap
    ({ data := writeRange N value old_len (new_len - old_len) data0,
       cap := cap0, len := new_len }, [])
  else if new_len < old_len then
    let dropped := (List.range' new_len (old_len - new_len)).map
      (fun i => getSlot s.data (i / N) (i % N))
    let required_chunks := if new_len = 0 then 0 else (new_len + N - 1) / N
    ({ data := s.data.take required_chunks, cap := s.cap, len := new_len }, dropped)
  else
    ({ s with len := new_len }, [])

/-- The in-chunk shift of `remove`: `ptr::copy(base+offset+1, base+offset,
N-1-offset)` moves slots `[offset+1, N)` down to `[offset, N-1)`; slot
`N-1` keeps its (now stale) bit pattern. -/
def shiftChunkLeftFrom {T : Type} (N : Nat) (ch : List (Option T)) (offset : Nat) :
    List (Option T) :=
  mkChunk N (fun j =>
    if j < offset then ch.getD j none
    else if j + 1 < N then ch.getD (j + 1) none
    else ch.getD j none)

/-- The intra-chunk part of the cross-chunk shift of `remove`:
`ptr::copy(next+1, next, N-1)` slides slots `[1, N)` down to `[0, N-1)`;
slot `N-1` keeps its bit pattern. -/
def slideChunkDown {T : Type} (N : Nat) (ch : List (Option T)) : List (Option T) :=
  mkChunk N (fun j => if j + 1 < N then ch.getD (j + 1) none else ch.getD j none)

/-- The cross-chunk loop of `remove`, `for i in current_chunk_idx..
until_chunk_idx`, run with fuel `k = until_chunk_idx - i` (the loop
executes exactly that many iterations): read the first slot of chunk
`i+1`, write it into the last slot of chunk `i`, slide chunk `i+1`
down by one. -/
def crossShiftAux {T : Type} (N : Nat) : Nat → Nat → List (List (Option T)) →
    List (List (Option T))
  | 0, i, data => data
  | k + 1, i, data =>
    let val_from_next := getSlot data (i + 1) 0
    let data1 := setSlot data i (N - 1) val_from_next
    let data2 := data1.set (i + 1) (slideChunkDown N (data1.getD (i + 1) []))
    crossShiftAux N k (i + 1) data2

/-- `ChunkedVec::remove` (operations.rs).  Panics (modelled as `.error`
with the exact message) if `index >= len`.  Otherwise reads the element
out, shifts the rest of its chunk down, runs the cross-chunk shift up to
chunk `(len - 1) / N`, decrements `len` and truncates the chunk list to
`if new_len == 0 then 0 else (new_len + N - 1) / N` chunks. -/
def ChunkedVec.remove {T : Type} {N : Nat} (s : ChunkedVec T N) (index : Nat) :
    Except String (Option T × ChunkedVec T N) :=
  if index ≥ s.len then
    .error ("removal index (is " ++ toString index ++ ") should be < len (is " ++
      toString s.len ++ ")")
  else
    let current_chunk_idx := index / N
    let offset := index % N
    let ret := getSlot s.data current_chunk_idx offset
    let data1 := s.data.set current_chunk_idx
      (shiftChunkLeftFrom N (s.data.getD current_chunk_idx []) offset)
    let until_chunk_idx := (s.len - 1) / N
    let data2 := crossShiftAux N (until_chunk_idx - current_chunk_idx) current_chunk_idx data1
    let new_len := s.len - 1
    let required_chunks := if new_len = 0 then 0 else (new_len + N - 1) / N
    .ok (ret, { data := data2.take required_chunks, cap := s.cap, len := new_len })

/-- `ChunkedVec::swap_remove` (operations.rs).  Panics (modelled as
`.error` with the exact message) if `index >= len`.  Otherwise reads the
element at `index` out, copies the bit pattern of the last element
(`len - 1`) into its slot (`ptr::copy(last, current, 1)`; the last slot
keeps its stale bits), and decrements `len`.  No truncation. -/
def ChunkedVec.swap_remove {T : Type} {N : Nat} (s : ChunkedVec T N) (index : Nat) :
    Except String (Option T × ChunkedVec T N) :=
  let len := s.len
  if index ≥ len then
    .error ("swap_remove index (is " ++ toString index ++ ") should be < len (is " ++
      toString len ++ ")")
  else
    let current_pos := (index / N, index % N)
    let ret := getSlot s.data current_pos.1 current_pos.2
    let last_pos := ((len - 1) / N, (len - 1) % N)
    let last := getSlot s.data last_pos.1 last_pos.2
    .ok (ret, { data := setSlot s.data current_pos.1 current_pos.2 last,
                cap := s.cap, len := len - 1 })

/-- `ChunkedVec::get_unchecked` (index.rs): the raw slot read at
`(index / N, index % N)`, no bounds check. -/
def ChunkedVec.get_unchecked {T : Type} {N : Nat} (s : ChunkedVec T N) (index : Nat) : Option T :=
  getSlot s.data (index / N) (index % N)

/-- `ChunkedVec::get` (index.rs): `none` if `index >= len`, otherwise the
reference obtained by the unchecked read (whose slot contents, possibly
uninitialized in an ill-formed state, are the inner `Option`). -/
def ChunkedVec.get {T : Type} {N : Nat} (s : ChunkedVec T N) (index : Nat) :
    Option (Option T) :=
  if index ≥ s.len then none else some (s.get_unchecked index)

/-- `ChunkedVec::get_mut` (index.rs): the same bounds check and slot
lookup as `get`, yielding an exclusive reference. -/
def ChunkedVec.get_mut {T : Type} {N : Nat} (s : ChunkedVec T N) (index : Nat) :
    Option (Option T) :=
  if index ≥ s.len then none else some (s.get_unchecked index)

/-- `Index for ChunkedVec` (index.rs): panics (modelled as `.error` with
the exact message) when `index >= len`, otherwise the unchecked read. -/
def ChunkedVec.index {T : Type} {N : Nat} (s : ChunkedVec T N) (index : Nat) :
    Except String (Option T) :=
  if index ≥ s.len then
    .error ("Index out of bounds: index " ++ toString index ++ " >= length " ++ toString s.len)
  else .ok (s.get_unchecked index)

/-- `IndexMut for ChunkedVec` (index.rs): same bounds check and message,
yielding the slot for mutation. -/
def ChunkedVec.index_mut {T : Type} {N : Nat} (s : ChunkedVec T N) (index : Nat) :
    Except String (Option T) :=
  if index ≥ s.len then
    .error ("Index out of bounds: index " ++ toString index ++ " >= length " ++ toString s.len)
  else .ok (s.get_unchecked index)

/-- `ChunkedVec::is_empty`. -/
def ChunkedVec.is_empty {T : Type} {N : Nat} (s : ChunkedVec T N) : Bool :=
  s.len == 0

/-- `ChunkedVec::capacity`: `self.data.capacity() * N`. -/
def ChunkedVec.capacity {T : Type} {N : Nat} (s : ChunkedVec T N) : Nat :=
  s.cap * N

/-- `ChunkedVec::allocated_capacity`: `self.data.len() * N`. -/
def ChunkedVec.allocated_capacity {T : Type} {N : Nat} (s : ChunkedVec T N) : Nat :=
  s.data.length * N

/-- Modelled from the spec: the container's destructor (not under `src/`)
destroys the live elements at logical indices `[0, len)` (spec §5:
"dropping the container ... must deterministically destroy every
not-yet-removed element exactly once").  The returned list logs the
destroyed slots in order. -/
def ChunkedVec.dropElems {T : Type} {N : Nat} (s : ChunkedVec T N) : List (Option T) :=
  (List.range s.len).map (fun i => getSlot s.data (i / N) (i % N))

/-- The owning iterator `IntoIter` (into_iter.rs): the consumed
container plus the traversal cursor `(chunk_idx, offset, remaining)`. -/
structure IntoIter (T : Type) (N : Nat) where
  vec : ChunkedVec T N
  chunk_idx : Nat
  offset : Nat
  remaining : Nat
deriving DecidableEq

/-- `IntoIterator::into_iter` for `ChunkedVec`. -/
def ChunkedVec.into_iter {T : Type} {N : Nat} (s : ChunkedVec T N) : IntoIter T N :=
  { remaining := s.len, vec := s, chunk_idx := 0, offset := 0 }

/-- `IntoIter::advance_position`: increment `offset`, roll over to the
next chunk when it reaches `N`, decrement `remaining`. -/
def IntoIter.advance_position {T : Type} {N : Nat} (it : IntoIter T N) : IntoIter T N :=
  let offset := it.offset + 1
  if offset = N then
    { it with chunk_idx := it.chunk_idx + 1, offset := 0, remaining := it.remaining - 1 }
  else
    { it with offset := offset, remaining := it.remaining - 1 }

/-- The read through `IntoIter::current_ptr` at the cursor. -/
def IntoIter.current_read {T : Type} {N : Nat} (it : IntoIter T N) : Option T :=
  getSlot it.vec.data it.chunk_idx it.offset

/-- `*self.current_ptr() = MaybeUninit::uninit()`: mark the cursor's
slot uninitialized. -/
def IntoIter.clear_current {T : Type} {N : Nat} (it : IntoIter T N) : IntoIter T N :=
  { it with vec := { it.vec with
      data := setSlot it.vec.data it.chunk_idx it.offset none } }

/-- `IntoIter::next` (into_iter.rs): `none` exactly when `remaining == 0`;
otherwise reads the current slot out by value, marks it uninitialized,
and advances.  The yielded slot contents are the inner `Option`. -/
def IntoIter.next {T : Type} {N : Nat} (it : IntoIter T N) :
    Option (Option T × IntoIter T N) :=
  if it.remaining = 0 then none
  else some (it.current_read, it.clear_current.advance_position)

/-- `k` iterations of the loop body shared by `next` and
`drop_remaining`: read the current slot, mark it uninitialized, advance.
The first component collects the slots read, in order. -/
def IntoIter.stepn {T : Type} {N : Nat} : Nat → IntoIter T N →
    List (Option T) × IntoIter T N
  | 0, it => ([], it)
  | k + 1, it =>
    let r := IntoIter.stepn k it.clear_current.advance_position
    (it.current_read :: r.1, r.2)

/-- `IntoIter::drop_remaining` (into_iter.rs): `while remaining > 0`,
destroy the current slot in place, mark it uninitialized, advance.
Since `advance_position` decrements `remaining` by exactly one each
pass, the loop runs exactly `remaining` iterations; the returned list
logs the destroyed slots in order. -/
def IntoIter.drop_remaining {T : Type} {N : Nat} (it : IntoIter T N) :
    List (Option T) × IntoIter T N :=
  IntoIter.stepn it.remaining it

/-- `Drop for IntoIter` (into_iter.rs): destroy all remaining elements,
then set the source container's `len` to `0` so its own destructor does
not destroy them again.  Returns the destroyed slots and the container
as left for its destructor. -/
def IntoIter.drop {T : Type} {N : Nat} (it : IntoIter T N) :
    List (Option T) × ChunkedVec T N :=
  let r := it.drop_remaining
  (r.1, { r.2.vec with len := 0 })

/-- `IntoIter::next` iterated `k` times, collecting the yielded slots. -/
def IntoIter.nextn {T : Type} {N : Nat} : Nat → IntoIter T N →
    List (Option T) × IntoIter T N
  | 0, it => ([], it)
  | k + 1, it =>
    match it.next with
    | none => ([], it)
    | some (v, it') =>
      let r := IntoIter.nextn k it'
      (v :: r.1, r.2)

/-- `s` holds exactly the elements of `l`, in order: `len` matches, every
chunk has exactly `N` slots, there are enough chunks for `len` elements,
and logical slot `i < len` holds the live element `l[i]`. -/
def Represents {T : Type} {N : Nat} (s : ChunkedVec T N) (l : List T) : Prop :=
  s.len = l.length ∧
  (∀ ch ∈ s.data, ch.length = N) ∧
  s.len ≤ s.data.length * N ∧
  ∀ i, i < l.length → getSlot s.data (i / N) (i % N) = l[i]?

instance {T : Type} [DecidableEq T] {N : Nat} (s : ChunkedVec T N) (l : List T) :
    Decidable (Represents s l) := by
  unfold Represents; exact inferInstance

/-- Structural well-formedness of a container state: it represents some
element list and the backing vector's capacity is at least its length. -/
def GoodState {T : Type} {N : Nat} (s : ChunkedVec T N) : Prop :=
  s.data.length ≤ s.cap ∧ ∃ l, Represents s l

/-- The chunk list is as short as possible: exactly
`ceil(len / N) = (len + N - 1) / N` chunks. -/
def Tight {T : Type} {N : Nat} (s : ChunkedVec T N) : Prop :=
  s.data.length = (s.len + N - 1) / N

/-- States reachable from the empty container through the public mutating
operations.  The flag selects whether `swap_remove` is allowed
(`ReachableW T N false` is reachability through `push`/`resize`/`remove`
only).  `get`/`get_mut`/indexing and the borrowing iterators do not
change the state; `into_iter` consumes the container. -/
inductive ReachableW (T : Type) (N : Nat) : Bool → ChunkedVec T N → Prop where
  | new {b : Bool} : ReachableW T N b (ChunkedVec.new T N)
  | push {b : Bool} {s : ChunkedVec T N} (v : T) :
      ReachableW T N b s → ReachableW T N b (s.push v)
  | resizeOp {b : Bool} {s : ChunkedVec T N} (m : Nat) (v : T) :
      ReachableW T N b s → ReachableW T N b (s.resize m v).1
  | removeOp {b : Bool} {s s' : ChunkedVec T N} {r : Option T} (i : Nat) :
      ReachableW T N b s → s.remove i = .ok (r, s') → ReachableW T N b s'
  | swapOp {s s' : ChunkedVec T N} {r : Option T} (i : Nat) :
      ReachableW T N true s → s.swap_remove i = .ok (r, s') → ReachableW T N true s'

/-- States reachable through all public operations. -/
def Reachable {T : Type} {N : Nat} (s : ChunkedVec T N) : Prop :=
  ReachableW T N true s

/-- The pointwise effect of the cross-chunk loop of `remove` run from
chunk `i` for `k` iterations on `data`: chunks outside `[i, i+k]` (and
everything when the loop is empty) are untouched; inside, the last slot
of each chunk `c < i+k` receives the first slot of chunk `c+1`, other
slots of chunks after `i` slide down by one, and chunk `i` keeps its
non-final slots. -/
def crossSpec {T : Type} (N : Nat) (data : List (List (Option T))) (i k c o : Nat) : Option T :=
  if i ≤ c ∧ c ≤ i + k ∧ k ≠ 0 then
    (if o = N - 1 then (if c < i + k then getSlot data (c + 1) 0 else getSlot data c o)
     else (if c = i then getSlot data c o else getSlot data c (o + 1)))
  else getSlot data c o

/-- `sub` occurs in `msg` as a contiguous substring. -/
def containsStr (msg sub : String) : Prop :=
  ∃ a b : String, msg = a ++ sub ++ b

/-- The container state reached by pushing `1, 2, 3, 4` into an empty
`ChunkedVec Nat 3` and then calling `swap_remove 0`: three live elements
(`4, 2, 3`), but two chunks still allocated (the second holds only the
stale bit pattern of the moved-out `4`). -/
def swapRemoveLeftover : ChunkedVec Nat 3 :=
  ⟨[[some 4, some 2, some 3], [some 4, none, none]], 2, 3⟩

/-! ## Slot-level lemmas -/

theorem getSlot_eq_getElem? {T : Type} (data : List (List (Option T))) (c o : Nat) :
    getSlot data c o = ((data[c]?.getD [])[o]?).getD none := by
  simp [getSlot, List.getD_eq_getElem?_getD]

theorem length_setSlot {T : Type} (data : List (List (Option T))) (c o : Nat) (v : Option T) :
    (setSlot data c o v).length = data.length := by
  simp [setSlot]

theorem getD_mem_of_lt {T : Type} {data : List (List (Option T))} {c : Nat}
    (hc : c < data.length) : data.getD c [] ∈ data := by
  rw [List.getD_eq_getElem?_getD, List.getElem?_eq_getElem hc, Option.getD_some]
  exact List.getElem_mem hc

theorem chunks_setSlot {T : Type} {N : Nat} {data : List (List (Option T))}
    (hch : ∀ ch ∈ data, ch.length = N) (c o : Nat) (v : Option T) :
    ∀ ch ∈ setSlot data c o v, ch.length = N := by
  intro ch hmem
  by_cases hc : c < data.length
  · rcases List.mem_or_eq_of_mem_set hmem with h | h
    · exact hch ch h
    · subst h
      rw [List.length_set]
      exact hch _ (getD_mem_of_lt hc)
  · rw [setSlot, List.set_eq_of_length_le (Nat.le_of_not_lt hc)] at hmem
    exact hch ch hmem

theorem getSlot_setSlot_self {T : Type} {data : List (List (Option T))} {c o : Nat}
    (hc : c < data.length) (ho : o < (data.getD c []).length) (v : Option T) :
    getSlot (setSlot data c o v) c o = v := by
  rw [getSlot_eq_getElem?, setSlot, List.getElem?_set_eq_of_lt _ hc]
  simp only [Option.getD_some]
  rw [List.getElem?_set_eq_of_lt _ ho]
  rfl

theorem getSlot_setSlot_ne {T : Type} {data : List (List (Option T))} {c o c' o' : Nat}
    (h : c' ≠ c ∨ o' ≠ o) (v : Option T) :
    getSlot (setSlot data c o v) c' o' = getSlot data c' o' := by
  by_cases hcc : c' = c
  · subst hcc
    rcases h with h | h
    · exact absurd rfl h
    · by_cases hc : c' < data.length
      · rw [getSlot_eq_getElem?, getSlot_eq_getElem?, setSlot,
          List.getElem?_set_eq_of_lt _ hc]
        simp only [Option.getD_some]
        rw [List.getElem?_set_ne (fun he => h he.symm)]
        rw [List.getD_eq_getElem?_getD, List.getElem?_eq_getElem hc]
      · rw [setSlot, List.set_eq_of_length_le (Nat.le_of_not_lt hc)]
  · rw [getSlot_eq_getElem?, getSlot_eq_getElem?, setSlot,
      List.getElem?_set_ne (fun he => hcc he.symm)]

theorem getSlot_append_left {T : Type} {data : List (List (Option T))} {c : Nat}
    (hc : c < data.length) (ext : List (List (Option T))) (o : Nat) :
    getSlot (data ++ ext) c o = getSlot data c o := by
  rw [getSlot_eq_getElem?, getSlot_eq_getElem?, List.getElem?_append_left hc]

theorem getSlot_append_chunk {T : Type} (data : List (List (Option T)))
    (ch : List (Option T)) (o : Nat) :
    getSlot (data ++ [ch]) data.length o = ch.getD o none := by
  rw [getSlot_eq_getElem?]
  have : (data ++ [ch])[data.length]? = some ch := by simp
  rw [this]
  simp [List.getD_eq_getElem?_getD]

theorem getSlot_take {T : Type} {data : List (List (Option T))} {c r : Nat}
    (hc : c < r) (o : Nat) :
    getSlot (data.take r) c o = getSlot data c o := by
  rw [getSlot_eq_getElem?, getSlot_eq_getElem?, List.getElem?_take]
  simp [hc]

theorem length_mkChunk {T : Type} (N : Nat) (f : Nat → Option T) :
    (mkChunk N f).length = N := by
  simp [mkChunk]

theorem getD_mkChunk {T : Type} (N : Nat) (f : Nat → Option T) (o : Nat) :
    (mkChunk N f).getD o none = if o < N then f o else none := by
  rcases Nat.lt_or_ge o N with h | h
  · rw [List.getD_eq_getElem?_getD, mkChunk, List.getElem?_map,
      List.getElem?_range h]
    simp [h]
  · have hnone : ((List.range N).map f)[o]? = none :=
      List.getElem?_eq_none (by simpa using h)
    rw [List.getD_eq_getElem?_getD, mkChunk, hnone]
    simp [Nat.not_lt.mpr h]

theorem getSlot_set_chunk_self {T : Type} {data : List (List (Option T))} {c : Nat}
    (hc : c < data.length) (ch : List (Option T)) (o : Nat) :
    getSlot (data.set c ch) c o = ch.getD o none := by
  rw [getSlot_eq_getElem?, List.getElem?_set_eq_of_lt _ hc]
  simp [List.getD_eq_getElem?_getD]

theorem getSlot_set_chunk_ne {T : Type} {data : List (List (Option T))} {c c' : Nat}
    (h : c' ≠ c) (ch : List (Option T)) (o : Nat) :
    getSlot (data.set c ch) c' o = getSlot data c' o := by
  rw [getSlot_eq_getElem?, getSlot_eq_getElem?, List.getElem?_set_ne (fun he => h he.symm)]

theorem getSlot_oob_chunk {T : Type} {data : List (List (Option T))} {c : Nat}
    (hc : data.length ≤ c) (o : Nat) : getSlot data c o = none := by
  rw [getSlot_eq_getElem?, List.getElem?_eq_none hc]
  rfl

/-! ## Division/remainder arithmetic for the index ↔ (chunk, offset) map -/

theorem idx_inj {N a b : Nat} (h1 : a / N = b / N) (h2 : a % N = b % N) : a = b := by
  have ha := Nat.div_add_mod a N
  have hb := Nat.div_add_mod b N
  calc a = N * (a / N) + a % N := ha.symm
    _ = N * (b / N) + b % N := by rw [h1, h2]
    _ = b := hb

theorem step_pos {N m : Nat} (hN : 0 < N) :
    (if m % N + 1 = N then ((m + 1) % N = 0 ∧ (m + 1) / N = m / N + 1)
     else ((m + 1) % N = m % N + 1 ∧ (m + 1) / N = m / N)) := by
  have hd := Nat.div_add_mod m N
  have hm : m % N < N := Nat.mod_lt _ hN
  by_cases h : m % N + 1 = N
  · rw [if_pos h]
    have he : m + 1 = N * (m / N + 1) := by
      rw [Nat.mul_succ]; omega
    exact ⟨by rw [he, Nat.mul_mod_right], by rw [he, Nat.mul_div_cancel_left _ hN]⟩
  · rw [if_neg h]
    have hlt : m % N + 1 < N := by omega
    have he : m + 1 = (m % N + 1) + (m / N) * N := by
      have hcomm : N * (m / N) = (m / N) * N := Nat.mul_comm _ _
      omega
    exact ⟨by rw [he, Nat.add_mul_mod_self_right, Nat.mod_eq_of_lt hlt],
      by rw [he, Nat.add_mul_div_right _ _ hN, Nat.div_eq_of_lt hlt, Nat.zero_add]⟩

theorem chunksFor_le_iff {N : Nat} (hN : 0 < N) (n c : Nat) :
    (n + N - 1) / N ≤ c ↔ n ≤ c * N := by
  rw [Nat.div_le_iff_le_mul_add_pred hN, Nat.mul_comm N c]
  omega

theorem le_chunksFor_mul {N : Nat} (hN : 0 < N) (n : Nat) :
    n ≤ ((n + N - 1) / N) * N :=
  (chunksFor_le_iff hN n _).mp (Nat.le_refl _)

theorem chunksFor_mono {N : Nat} (hN : 0 < N) {m n : Nat} (h : m ≤ n) :
    (m + N - 1) / N ≤ (n + N - 1) / N :=
  (chunksFor_le_iff hN m _).mpr (Nat.le_trans h (le_chunksFor_mul hN n))

theorem chunksFor_succ {N : Nat} (hN : 0 < N) (n : Nat) :
    (n + 1 + N - 1) / N = n / N + 1 := by
  have : n + 1 + N - 1 = n + N := by omega
  rw [this, Nat.add_div_right _ hN]

theorem requiredChunks_eq {N : Nat} (hN : 0 < N) (n : Nat) :
    (if n = 0 then 0 else (n + N - 1) / N) = (n + N - 1) / N := by
  by_cases h : n = 0
  · subst h
    rw [if_pos rfl]
    have : 0 + N - 1 < N := by omega
    rw [Nat.div_eq_of_lt this]
  · rw [if_neg h]

theorem div_lt_of_lt_mul' {N a c : Nat} (hN : 0 < N) (h : a < c * N) : a / N < c :=
  (Nat.div_lt_iff_lt_mul hN).mpr h

theorem div_le_of_le_mul' {N a c : Nat} (hN : 0 < N) (h : a ≤ c * N) : a / N ≤ c := by
  rw [Nat.div_le_iff_le_mul_add_pred hN, Nat.mul_comm N c]
  omega

theorem chunksFor_le_succ_div {N : Nat} (hN : 0 < N) (n : Nat) :
    (n + N - 1) / N ≤ n / N + 1 := by
  rw [chunksFor_le_iff hN]
  have h1 := Nat.div_add_mod n N
  have h2 := Nat.mod_lt n hN
  have h3 : (n / N + 1) * N = N * (n / N) + N := by
    rw [Nat.succ_mul, Nat.mul_comm]
  omega

/-! ## Correctness of `push` -/

theorem rep_chunk_len {T : Type} {N : Nat} {data : List (List (Option T))}
    (hch : ∀ ch ∈ data, ch.length = N) {c : Nat} (hc : c < data.length) :
    (data.getD c []).length = N :=
  hch _ (getD_mem_of_lt hc)

theorem push_spec {T : Type} {N : Nat} (hN : 0 < N) {s : ChunkedVec T N} {l : List T}
    (h : Represents s l) (v : T) :
    Represents (s.push v) (l ++ [v]) ∧
    (s.push v).data.length =
      (if s.data.length ≤ s.len / N then s.data.length + 1 else s.data.length) ∧
    (s.push v).cap =
      (if s.data.length ≤ s.len / N then vecPushCap s.cap (s.data.length + 1) else s.cap) := by
  obtain ⟨hlen, hch, hbound, hslots⟩ := h
  by_cases hcase : s.data.length ≤ s.len / N
  · have hdl : s.len = s.data.length * N := by
      have h1 : s.len / N * N ≤ s.len := Nat.div_mul_le_self _ _
      have h2 : s.data.length * N ≤ s.len / N * N := Nat.mul_le_mul_right _ hcase
      omega
    have hdiv : s.len / N = s.data.length := by
      have h3 := div_le_of_le_mul' hN (Nat.le_of_eq hdl)
      omega
    have hmod : s.len % N = 0 := by rw [hdl, Nat.mul_mod_left]
    have hpush : s.push v =
        ⟨s.data ++ [ChunkedVec.create_new_chunk N v],
          vecPushCap s.cap (s.data.length + 1), s.len + 1⟩ := by
      simp only [ChunkedVec.push, ge_iff_le, if_pos hcase]
    rw [hpush, if_pos hcase, if_pos hcase]
    refine ⟨⟨by simp [hlen], ?_, ?_, ?_⟩, by simp, rfl⟩
    · intro ch hmem
      rcases List.mem_append.mp hmem with hm | hm
      · exact hch ch hm
      · rw [List.mem_singleton.mp hm]
        exact length_mkChunk N _
    · have hstep : (s.data.length + 1) * N = s.data.length * N + N := Nat.succ_mul _ _
      simp only [List.length_append, List.length_singleton]
      omega
    · intro i hi
      simp only [List.length_append, List.length_singleton] at hi
      rcases Nat.lt_or_ge i l.length with hi' | hi'
      · have hci : i / N < s.data.length :=
          div_lt_of_lt_mul' hN (by omega)
        rw [getSlot_append_left hci, hslots i hi', List.getElem?_append_left hi']
      · have hieq : i = l.length := by omega
        subst hieq
        have hci : l.length / N = s.data.length := by rw [← hlen]; exact hdiv
        have hoi : l.length % N = 0 := by rw [← hlen]; exact hmod
        rw [hci, hoi, getSlot_append_chunk, ChunkedVec.create_new_chunk, getD_mkChunk]
        simp [hN]
  · have hci : s.len / N < s.data.length := Nat.lt_of_not_le hcase
    have hpush : s.push v =
        ⟨setSlot s.data (s.len / N) (s.len % N) (some v), s.cap, s.len + 1⟩ := by
      simp only [ChunkedVec.push, ge_iff_le, if_neg hcase]
    rw [hpush, if_neg hcase, if_neg hcase]
    refine ⟨⟨by simp [hlen], chunks_setSlot hch _ _ _, ?_, ?_⟩, by simp [length_setSlot], rfl⟩
    · show s.len + 1 ≤ (setSlot s.data (s.len / N) (s.len % N) (some v)).length * N
      rw [length_setSlot]
      have h4 : s.len < s.data.length * N := (Nat.div_lt_iff_lt_mul hN).mp hci
      omega
    · intro i hi
      simp only [List.length_append, List.length_singleton] at hi
      rcases Nat.lt_or_ge i l.length with hi' | hi'
      · have hne : i / N ≠ s.len / N ∨ i % N ≠ s.len % N := by
          by_contra hcon
          push_neg at hcon
          have : i = s.len := idx_inj hcon.1 hcon.2
          omega
        rw [getSlot_setSlot_ne hne, hslots i hi', List.getElem?_append_left hi']
      · have hieq : i = l.length := by omega
        subst hieq
        rw [← hlen]
        have hco : (s.data.getD (s.len / N) []).length = N := rep_chunk_len hch hci
        rw [getSlot_setSlot_self hci (by rw [hco]; exact Nat.mod_lt _ hN)]
        rw [hlen]
        simp

theorem pushAll_represents {T : Type} {N : Nat} (hN : 0 < N) :
    ∀ (vs : List T) {s : ChunkedVec T N} {l : List T},
      Represents s l → Represents (s.pushAll vs) (l ++ vs)
  | [], s, l, h => by simpa [ChunkedVec.pushAll] using h
  | v :: vs, s, l, h => by
    have h1 := (push_spec hN h v).1
    have h2 := pushAll_represents hN vs h1
    simpa [ChunkedVec.pushAll, List.foldl_cons] using h2

theorem new_represents {T : Type} (N : Nat) : Represents (ChunkedVec.new T N) [] := by
  refine ⟨rfl, ?_, ?_, ?_⟩ <;> simp [ChunkedVec.new]

/-! ## Correctness of `swap_remove` -/

theorem comp_div {N c o : Nat} (hN : 0 < N) (ho : o < N) : (c * N + o) / N = c := by
  rw [Nat.add_comm, Nat.add_mul_div_right _ _ hN, Nat.div_eq_of_lt ho, Nat.zero_add]

theorem comp_mod {N c o : Nat} (ho : o < N) : (c * N + o) % N = o := by
  rw [Nat.add_comm, Nat.add_mul_mod_self_right, Nat.mod_eq_of_lt ho]

theorem div_mul_add_mod (n N : Nat) : n / N * N + n % N = n := by
  rw [Nat.mul_comm]
  exact Nat.div_add_mod n N

theorem swap_remove_spec {T : Type} {N : Nat} (hN : 0 < N) {s : ChunkedVec T N}
    {l0 : List T} {z : T} (h : Represents s (l0 ++ [z])) {i : Nat}
    (hi : i < l0.length + 1) :
    ∃ s', s.swap_remove i = .ok ((l0 ++ [z])[i]?, s') ∧
      Represents s' (l0.set i z) ∧ s'.data.length = s.data.length ∧
      s'.cap = s.cap ∧ s'.len = l0.length := by
  obtain ⟨hlen, hch, hbound, hslots⟩ := h
  rw [List.length_append, List.length_singleton] at hlen
  have hig : ¬ i ≥ s.len := by omega
  have hlast : getSlot s.data ((s.len - 1) / N) ((s.len - 1) % N) = some z := by
    have h1 : s.len - 1 = l0.length := by omega
    rw [h1, hslots l0.length (by simp), List.getElem?_concat_length]
  refine ⟨⟨setSlot s.data (i / N) (i % N) (some z), s.cap, s.len - 1⟩, ?_, ?_⟩
  · simp only [ChunkedVec.swap_remove, if_neg hig]
    rw [hlast, hslots i (by simp; omega)]
  · have hci : i / N < s.data.length := div_lt_of_lt_mul' hN (by omega)
    have hoc : (s.data.getD (i / N) []).length = N := rep_chunk_len hch hci
    refine ⟨⟨by simp only [List.length_set]; omega, chunks_setSlot hch _ _ _, ?_, ?_⟩,
      by rw [show ({ data := setSlot s.data (i / N) (i % N) (some z), cap := s.cap, len := s.len - 1 } : ChunkedVec T N).data = setSlot s.data (i / N) (i % N) (some z) from rfl, length_setSlot],
      rfl, by show s.len - 1 = l0.length; omega⟩
    case refine_1 =>
      show s.len - 1 ≤ (setSlot s.data (i / N) (i % N) (some z)).length * N
      rw [length_setSlot]
      omega
    intro j hj
    rw [List.length_set] at hj
    by_cases hji : j = i
    · subst hji
      rw [getSlot_setSlot_self hci (by rw [hoc]; exact Nat.mod_lt _ hN)]
      rw [List.getElem?_set_eq_of_lt _ (by omega)]
    · have hne : j / N ≠ i / N ∨ j % N ≠ i % N := by
        by_contra hcon
        push_neg at hcon
        exact hji (idx_inj hcon.1 hcon.2)
      rw [getSlot_setSlot_ne hne, hslots j (by simp; omega),
        List.getElem?_append_left hj, List.getElem?_set_ne (fun he => hji he.symm)]

/-! ## Correctness of `resize` -/

theorem length_writeRange {T : Type} {N : Nat} (value : T) :
    ∀ (k i : Nat) (data : List (List (Option T))),
      (writeRange N value i k data).length = data.length
  | 0, i, data => rfl
  | k + 1, i, data => by
    show (writeRange N value (i + 1) k (setSlot data (i / N) (i % N) (some value))).length = _
    rw [length_writeRange value k (i + 1) _, length_setSlot]

theorem chunks_writeRange {T : Type} {N : Nat} (value : T) :
    ∀ (k i : Nat) (data : List (List (Option T))),
      (∀ ch ∈ data, ch.length = N) →
      ∀ ch ∈ writeRange N value i k data, ch.length = N
  | 0, i, data, hch => hch
  | k + 1, i, data, hch => by
    show ∀ ch ∈ writeRange N value (i + 1) k (setSlot data (i / N) (i % N) (some value)),
      ch.length = N
    exact chunks_writeRange value k (i + 1) _ (chunks_setSlot hch _ _ _)

theorem getSlot_writeRange {T : Type} {N : Nat} (hN : 0 < N) (value : T) :
    ∀ (k i : Nat) (data : List (List (Option T))),
      (∀ ch ∈ data, ch.length = N) → i + k ≤ data.length * N →
      ∀ c o, getSlot (writeRange N value i k data) c o =
        if i ≤ c * N + o ∧ c * N + o < i + k ∧ o < N then some value
        else getSlot data c o
  | 0, i, data, hch, hb, c, o => by
    rw [if_neg (by omega)]
    rfl
  | k + 1, i, data, hch, hb, c, o => by
    show getSlot (writeRange N value (i + 1) k (setSlot data (i / N) (i % N) (some value))) c o = _
    have hlen1 : (setSlot data (i / N) (i % N) (some value)).length = data.length :=
      length_setSlot _ _ _ _
    have hih := getSlot_writeRange hN value k (i + 1)
      (setSlot data (i / N) (i % N) (some value))
      (chunks_setSlot hch _ _ _) (by rw [hlen1]; omega) c o
    rw [hih]
    have hci : i / N < data.length := div_lt_of_lt_mul' hN (by omega)
    have hoc : (data.getD (i / N) []).length = N := rep_chunk_len hch hci
    by_cases h1 : i + 1 ≤ c * N + o ∧ c * N + o < i + 1 + k ∧ o < N
    · rw [if_pos h1, if_pos (by omega)]
    · rw [if_neg h1]
      by_cases h2 : c = i / N ∧ o = i % N
      · have hco : c * N + o = i := by
          rw [h2.1, h2.2]
          exact div_mul_add_mod i N
        have hoN : o < N := by rw [h2.2]; exact Nat.mod_lt _ hN
        rw [if_pos (by omega)]
        rw [h2.1, h2.2]
        exact getSlot_setSlot_self hci (by rw [hoc]; exact Nat.mod_lt _ hN) _
      · have hne : c ≠ i / N ∨ o ≠ i % N := by
          by_contra hcon
          push_neg at hcon
          exact h2 ⟨hcon.1, hcon.2⟩
        rw [getSlot_setSlot_ne hne]
        rw [if_neg ?_]
        intro hcon
        rcases hcon with ⟨ha, hb2, hoN⟩
        have hco : c * N + o = i := by omega
        have : c = i / N := by rw [← hco]; exact (comp_div hN hoN).symm
        have : o = i % N := by rw [← hco]; exact (comp_mod hoN).symm
        rcases hne with hne | hne <;> omega

theorem resize_shrink_spec {T : Type} {N : Nat} (hN : 0 < N) {s : ChunkedVec T N}
    {l : List T} (h : Represents s l) {m : Nat} (hm : m < l.length) (value : T) :
    ∃ s', s.resize m value = (s', (l.drop m).map some) ∧ Represents s' (l.take m) ∧
      s'.len = m ∧ s'.cap = s.cap ∧ s'.data.length = (m + N - 1) / N := by
  obtain ⟨hlen, hch, hbound, hslots⟩ := h
  have hreq : (if m = 0 then 0 else (m + N - 1) / N) = (m + N - 1) / N := requiredChunks_eq hN m
  have hreq_le : (m + N - 1) / N ≤ s.data.length := by
    rw [chunksFor_le_iff hN]
    omega
  have hdropped : (List.range' m (s.len - m)).map (fun i => getSlot s.data (i / N) (i % N)) =
      (l.drop m).map some := by
    refine List.ext_getElem? fun j => ?_
    by_cases hj : j < s.len - m
    · have hjm : m + j < l.length := by omega
      have e1 : (List.range' m (s.len - m))[j]? = some (m + j) := by
        rw [List.getElem?_range' _ _ hj]
        congr 1
        omega
      rw [List.getElem?_map, List.getElem?_map, e1, List.getElem?_drop]
      show some (getSlot s.data ((m + j) / N) ((m + j) % N)) = (l[m + j]?).map some
      rw [hslots (m + j) hjm, List.getElem?_eq_getElem hjm]
      rfl
    · have h1 : (List.range' m (s.len - m)).length ≤ j := by
        rw [List.length_range']; omega
      have h2 : (l.drop m).length ≤ j := by
        rw [List.length_drop]; omega
      rw [List.getElem?_map, List.getElem?_map, List.getElem?_eq_none h1,
        List.getElem?_eq_none h2]
      rfl
  refine ⟨⟨s.data.take (if m = 0 then 0 else (m + N - 1) / N), s.cap, m⟩, ?_, ?_, rfl, rfl, ?_⟩
  · rw [ChunkedVec.resize, if_neg (by omega), if_pos (by omega)]
    rw [hdropped]
  · refine ⟨by simp only [List.length_take]; omega, ?_, ?_, ?_⟩
    · intro ch hmem
      exact hch ch (List.mem_of_mem_take hmem)
    · show m ≤ (s.data.take (if m = 0 then 0 else (m + N - 1) / N)).length * N
      rw [List.length_take, hreq]
      have h1 := le_chunksFor_mul hN m
      have h2 : min ((m + N - 1) / N) s.data.length = (m + N - 1) / N :=
        Nat.min_eq_left hreq_le
      rw [h2]
      exact h1
    · intro j hj
      rw [List.length_take] at hj
      have hjm : j < m := by omega
      have hcj : j / N < (m + N - 1) / N :=
        div_lt_of_lt_mul' hN (Nat.lt_of_lt_of_le hjm (le_chunksFor_mul hN m))
      rw [hreq, getSlot_take hcj, hslots j (by omega), List.getElem?_take]
      rw [if_pos hjm]
  · show (s.data.take (if m = 0 then 0 else (m + N - 1) / N)).length = (m + N - 1) / N
    rw [List.length_take, hreq]
    exact Nat.min_eq_left hreq_le

theorem resize_grow_spec {T : Type} {N : Nat} (hN : 0 < N) {s : ChunkedVec T N}
    {l : List T} (h : Represents s l) {m : Nat} (hm : l.length < m) (value : T) :
    ∃ s', s.resize m value = (s', []) ∧
      Represents s' (l ++ List.replicate (m - l.length) value) ∧
      s'.len = m ∧ s'.data.length = max s.data.length ((m + N - 1) / N) ∧
      (s.data.length ≤ s.cap → s'.data.length ≤ s'.cap) := by
  obtain ⟨hlen, hch, hbound, hslots⟩ := h
  have hd0len : (if (m + N - 1) / N > s.data.length then
      s.data ++ List.replicate ((m + N - 1) / N - s.data.length) (mkChunk N (fun _ => none))
      else s.data).length = max s.data.length ((m + N - 1) / N) := by
    by_cases hg : (m + N - 1) / N > s.data.length
    · rw [if_pos hg]
      simp only [List.length_append, List.length_replicate]
      omega
    · rw [if_neg hg]
      omega
  have hd0ch : ∀ ch ∈ (if (m + N - 1) / N > s.data.length then
      s.data ++ List.replicate ((m + N - 1) / N - s.data.length) (mkChunk N (fun _ => none))
      else s.data), ch.length = N := by
    by_cases hg : (m + N - 1) / N > s.data.length
    · rw [if_pos hg]
      intro ch hmem
      rcases List.mem_append.mp hmem with h1 | h1
      · exact hch ch h1
      · rw [List.eq_of_mem_replicate h1]
        exact length_mkChunk N _
    · rw [if_neg hg]
      exact hch
  have hd0slot : ∀ c, c < s.data.length → ∀ o,
      getSlot (if (m + N - 1) / N > s.data.length then
        s.data ++ List.replicate ((m + N - 1) / N - s.data.length) (mkChunk N (fun _ => none))
        else s.data) c o = getSlot s.data c o := by
    intro c hc o
    by_cases hg : (m + N - 1) / N > s.data.length
    · rw [if_pos hg, getSlot_append_left hc]
    · rw [if_neg hg]
  have hbound0 : s.len + (m - s.len) ≤ (if (m + N - 1) / N > s.data.length then
      s.data ++ List.replicate ((m + N - 1) / N - s.data.length) (mkChunk N (fun _ => none))
      else s.data).length * N := by
    rw [hd0len]
    have h1 := le_chunksFor_mul hN m
    have h2 : (m + N - 1) / N * N ≤ max s.data.length ((m + N - 1) / N) * N :=
      Nat.mul_le_mul_right _ (Nat.le_max_right _ _)
    omega
  refine ⟨⟨writeRange N value s.len (m - s.len)
      (if (m + N - 1) / N > s.data.length then
        s.data ++ List.replicate ((m + N - 1) / N - s.data.length) (mkChunk N (fun _ => none))
        else s.data),
      (if (m + N - 1) / N > s.data.length then
        (if (m + N - 1) / N ≤ s.cap then s.cap else max (2 * s.cap) ((m + N - 1) / N))
        else s.cap), m⟩, ?_, ?_, rfl, ?_, ?_⟩
  · simp only [ChunkedVec.resize]
    rw [if_pos (by omega)]
  · refine ⟨by simp only [List.length_append, List.length_replicate]; omega,
      chunks_writeRange value _ _ _ hd0ch, ?_, ?_⟩
    · show m ≤ (writeRange N value s.len (m - s.len) _).length * N
      rw [length_writeRange, hd0len]
      have h1 := le_chunksFor_mul hN m
      have h2 : (m + N - 1) / N * N ≤ max s.data.length ((m + N - 1) / N) * N :=
        Nat.mul_le_mul_right _ (Nat.le_max_right _ _)
      omega
    · intro j hj
      rw [List.length_append, List.length_replicate] at hj
      have hjm : j < m := by omega
      rw [getSlot_writeRange hN value (m - s.len) s.len _ hd0ch hbound0,
        div_mul_add_mod j N]
      by_cases hj1 : j < l.length
      · rw [if_neg (by omega)]
        have hc : j / N < s.data.length := div_lt_of_lt_mul' hN (by omega)
        rw [hd0slot _ hc, hslots j hj1, List.getElem?_append_left hj1]
      · rw [if_pos (by constructor; omega; constructor; omega; exact Nat.mod_lt _ hN)]
        rw [List.getElem?_append_right (by omega)]
        rw [List.getElem?_replicate]
        rw [if_pos (by omega)]
  · show (writeRange N value s.len (m - s.len) _).length = _
    rw [length_writeRange, hd0len]
  · intro hcap
    show (writeRange N value s.len (m - s.len)
      (if (m + N - 1) / N > s.data.length then
        s.data ++ List.replicate ((m + N - 1) / N - s.data.length) (mkChunk N (fun _ => none))
        else s.data)).length ≤
      (if (m + N - 1) / N > s.data.length then
        (if (m + N - 1) / N ≤ s.cap then s.cap else max (2 * s.cap) ((m + N - 1) / N))
        else s.cap)
    rw [length_writeRange, hd0len]
    by_cases hg : (m + N - 1) / N > s.data.length
    · rw [if_pos hg, max_eq_right (Nat.le_of_lt hg)]
      by_cases hc2 : (m + N - 1) / N ≤ s.cap
      · rw [if_pos hc2]
        exact hc2
      · rw [if_neg hc2]
        exact Nat.le_max_right _ _
    · rw [if_neg hg, max_eq_left (Nat.le_of_not_lt hg)]
      exact hcap

theorem resize_self_spec {T : Type} {N : Nat} (s : ChunkedVec T N) (value : T) :
    s.resize s.len value = (s, []) := by
  simp only [ChunkedVec.resize]
  rw [if_neg (by omega), if_neg (by omega)]

/-! ## Correctness of `remove` -/

theorem getD_chunk_set_ne {T : Type} {data : List (List (Option T))} {c c' : Nat}
    (h : c' ≠ c) (ch : List (Option T)) :
    (data.set c ch).getD c' [] = data.getD c' [] := by
  rw [List.getD_eq_getElem?_getD, List.getD_eq_getElem?_getD,
    List.getElem?_set_ne (fun he => h he.symm)]

theorem chunks_set_chunk {T : Type} {N : Nat} {data : List (List (Option T))}
    (hch : ∀ ch ∈ data, ch.length = N) {ch0 : List (Option T)} (hc0 : ch0.length = N)
    (c : Nat) : ∀ ch ∈ data.set c ch0, ch.length = N := by
  intro ch hmem
  rcases List.mem_or_eq_of_mem_set hmem with h | h
  · exact hch ch h
  · rw [h]; exact hc0

theorem length_crossShiftAux {T : Type} {N : Nat} :
    ∀ (k i : Nat) (data : List (List (Option T))),
      (crossShiftAux N k i data).length = data.length
  | 0, i, data => rfl
  | k + 1, i, data => by
    show (crossShiftAux N k (i + 1) _).length = _
    rw [length_crossShiftAux k (i + 1) _]
    simp [length_setSlot]

theorem chunks_crossShiftAux {T : Type} {N : Nat} :
    ∀ (k i : Nat) (data : List (List (Option T))),
      (∀ ch ∈ data, ch.length = N) → ∀ ch ∈ crossShiftAux N k i data, ch.length = N
  | 0, i, data, hch => hch
  | k + 1, i, data, hch => by
    show ∀ ch ∈ crossShiftAux N k (i + 1) _, ch.length = N
    exact chunks_crossShiftAux k (i + 1) _
      (chunks_set_chunk (chunks_setSlot hch _ _ _) (length_mkChunk N _) _)

theorem crossShiftAux_getSlot {T : Type} {N : Nat} (hN : 0 < N) :
    ∀ (k i : Nat) (data : List (List (Option T))),
      (∀ ch ∈ data, ch.length = N) → i + k < data.length →
      ∀ c o, o < N →
        getSlot (crossShiftAux N k i data) c o = crossSpec N data i k c o
  | 0, i, data, hch, hb, c, o, ho => by
    rw [crossSpec, if_neg (by omega)]
    rfl
  | k + 1, i, data, hch, hb, c, o, ho => by
    have hgetD : (setSlot data i (N - 1) (getSlot data (i + 1) 0)).getD (i + 1) [] =
        data.getD (i + 1) [] := getD_chunk_set_ne (by omega) _
    show getSlot (crossShiftAux N k (i + 1)
      ((setSlot data i (N - 1) (getSlot data (i + 1) 0)).set (i + 1)
        (slideChunkDown N ((setSlot data i (N - 1) (getSlot data (i + 1) 0)).getD (i + 1) [])))) c o = _
    rw [hgetD]
    have hd1len : (setSlot data i (N - 1) (getSlot data (i + 1) 0)).length = data.length :=
      length_setSlot _ _ _ _
    have hd2ch : ∀ ch ∈ (setSlot data i (N - 1) (getSlot data (i + 1) 0)).set (i + 1)
        (slideChunkDown N (data.getD (i + 1) [])), ch.length = N :=
      chunks_set_chunk (chunks_setSlot hch _ _ _) (length_mkChunk N _) _
    have hd2len : ((setSlot data i (N - 1) (getSlot data (i + 1) 0)).set (i + 1)
        (slideChunkDown N (data.getD (i + 1) []))).length = data.length := by
      rw [List.length_set, hd1len]
    have hd2 : ∀ c' o', o' < N →
        getSlot ((setSlot data i (N - 1) (getSlot data (i + 1) 0)).set (i + 1)
          (slideChunkDown N (data.getD (i + 1) []))) c' o' =
        if c' = i + 1 then
          (if o' + 1 < N then getSlot data (i + 1) (o' + 1) else getSlot data (i + 1) o')
        else if c' = i ∧ o' = N - 1 then getSlot data (i + 1) 0
        else getSlot data c' o' := by
      intro c' o' ho'
      by_cases hc1 : c' = i + 1
      · subst hc1
        rw [if_pos rfl, getSlot_set_chunk_self (by rw [hd1len]; omega),
          slideChunkDown, getD_mkChunk, if_pos ho']
        rfl
      · rw [if_neg hc1, getSlot_set_chunk_ne hc1]
        by_cases hc2 : c' = i ∧ o' = N - 1
        · rw [if_pos hc2, hc2.1, hc2.2]
          exact getSlot_setSlot_self (by omega)
            (by rw [rep_chunk_len hch (show i < data.length by omega)]; omega) _
        · rw [if_neg hc2]
          have hne : c' ≠ i ∨ o' ≠ N - 1 := by tauto
          exact getSlot_setSlot_ne hne _
    have hih := crossShiftAux_getSlot hN k (i + 1)
      ((setSlot data i (N - 1) (getSlot data (i + 1) 0)).set (i + 1)
        (slideChunkDown N (data.getD (i + 1) [])))
      hd2ch (by rw [hd2len]; omega) c o ho
    rw [hih, crossSpec, crossSpec]
    by_cases hA : i ≤ c ∧ c ≤ i + (k + 1) ∧ k + 1 ≠ 0
    · rw [if_pos hA]
      by_cases hci : c = i
      · subst hci
        rw [if_neg (show ¬(c + 1 ≤ c ∧ c ≤ c + 1 + k ∧ k ≠ 0) by omega)]
        rw [hd2 c o ho, if_neg (show ¬c = c + 1 by omega)]
        by_cases hO : o = N - 1
        · rw [if_pos (show c = c ∧ o = N - 1 from ⟨rfl, hO⟩), if_pos hO,
            if_pos (show c < c + (k + 1) by omega)]
        · rw [if_neg (show ¬(c = c ∧ o = N - 1) by tauto), if_neg hO, if_pos rfl]
      · by_cases hk : k = 0
        · subst hk
          have hc1 : c = i + 1 := by omega
          subst hc1
          rw [if_neg (show ¬(i + 1 ≤ i + 1 ∧ i + 1 ≤ i + 1 + 0 ∧ (0 : Nat) ≠ 0) by omega)]
          rw [hd2 (i + 1) o ho, if_pos rfl]
          by_cases hO : o = N - 1
          · rw [if_neg (show ¬o + 1 < N by omega), if_pos hO,
              if_neg (show ¬i + 1 < i + (0 + 1) by omega)]
          · rw [if_pos (show o + 1 < N by omega), if_neg hO,
              if_neg (show ¬i + 1 = i by omega)]
        · rw [if_pos (show i + 1 ≤ c ∧ c ≤ i + 1 + k ∧ k ≠ 0 by omega)]
          by_cases hO : o = N - 1
          · rw [if_pos hO, if_pos hO]
            by_cases hC : c < i + 1 + k
            · rw [if_pos hC, if_pos (show c < i + (k + 1) by omega)]
              rw [hd2 (c + 1) 0 hN, if_neg (show ¬c + 1 = i + 1 by omega),
                if_neg (show ¬(c + 1 = i ∧ (0 : Nat) = N - 1) by omega)]
            · rw [if_neg hC, if_neg (show ¬c < i + (k + 1) by omega)]
              rw [hd2 c o ho, if_neg (show ¬c = i + 1 by omega),
                if_neg (show ¬(c = i ∧ o = N - 1) by omega)]
          · rw [if_neg hO, if_neg hO]
            by_cases hC : c = i + 1
            · rw [if_pos hC, hd2 c o ho, if_pos hC,
                if_pos (show o + 1 < N by omega), if_neg (show ¬c = i by omega), hC]
            · rw [if_neg hC, hd2 c (o + 1) (by omega), if_neg hC,
                if_neg (show ¬(c = i ∧ o + 1 = N - 1) by omega),
                if_neg (show ¬c = i by omega)]
    · rw [if_neg hA]
      rw [if_neg (show ¬(i + 1 ≤ c ∧ c ≤ i + 1 + k ∧ k ≠ 0) by omega)]
      rw [hd2 c o ho]
      rw [if_neg (show ¬c = i + 1 by omega), if_neg (show ¬(c = i ∧ o = N - 1) by omega)]

theorem remove_shift_getSlot {T : Type} {N : Nat} (hN : 0 < N)
    {data : List (List (Option T))} (hch : ∀ ch ∈ data, ch.length = N)
    {len : Nat} (hb : len ≤ data.length * N) {i : Nat} (hi : i < len) :
    ∀ j, j < len - 1 →
      getSlot (crossShiftAux N ((len - 1) / N - i / N) (i / N)
        (data.set (i / N) (shiftChunkLeftFrom N (data.getD (i / N) []) (i % N))))
        (j / N) (j % N) =
      if j < i then getSlot data (j / N) (j % N)
      else getSlot data ((j + 1) / N) ((j + 1) % N) := by
  intro j hj
  have hoffN : i % N < N := Nat.mod_lt _ hN
  have hjoN : j % N < N := Nat.mod_lt _ hN
  have hid : i / N * N + i % N = i := div_mul_add_mod i N
  have hjd : j / N * N + j % N = j := div_mul_add_mod j N
  have hcid : i / N < data.length := div_lt_of_lt_mul' hN (by omega)
  have hud : (len - 1) / N < data.length := div_lt_of_lt_mul' hN (by omega)
  have hciu : i / N ≤ (len - 1) / N := Nat.div_le_div_right (by omega)
  have hd1ch : ∀ ch ∈ data.set (i / N) (shiftChunkLeftFrom N (data.getD (i / N) []) (i % N)),
      ch.length = N := chunks_set_chunk hch (length_mkChunk N _) _
  have hd1len : (data.set (i / N)
      (shiftChunkLeftFrom N (data.getD (i / N) []) (i % N))).length = data.length :=
    List.length_set _ _ _
  have hcross := crossShiftAux_getSlot hN ((len - 1) / N - i / N) (i / N) _ hd1ch
    (by rw [hd1len]; omega) (j / N) (j % N) hjoN
  rw [hcross, crossSpec]
  have hd1full : ∀ c o, o < N →
      getSlot (data.set (i / N) (shiftChunkLeftFrom N (data.getD (i / N) []) (i % N))) c o =
      if c = i / N then
        (if o < i % N then getSlot data c o
         else if o + 1 < N then getSlot data c (o + 1)
         else getSlot data c o)
      else getSlot data c o := by
    intro c o ho
    by_cases hc : c = i / N
    · subst hc
      rw [if_pos rfl, getSlot_set_chunk_self hcid, shiftChunkLeftFrom, getD_mkChunk, if_pos ho]
      rfl
    · rw [if_neg hc, getSlot_set_chunk_ne hc]
  by_cases hji : j < i
  · rw [if_pos hji]
    by_cases hceq : j / N = i / N
    · have hmul : j / N * N = i / N * N := by rw [hceq]
      have hoo : j % N < i % N := by omega
      by_cases hcond : i / N ≤ j / N ∧
          j / N ≤ i / N + ((len - 1) / N - i / N) ∧ (len - 1) / N - i / N ≠ 0
      · rw [if_pos hcond, if_neg (show ¬j % N = N - 1 by omega), if_pos hceq,
          hd1full _ _ hjoN, if_pos hceq, if_pos hoo]
      · rw [if_neg hcond, hd1full _ _ hjoN, if_pos hceq, if_pos hoo]
    · have hclt : j / N < i / N :=
        Nat.lt_of_le_of_ne (Nat.div_le_div_right (by omega)) hceq
      rw [if_neg (show ¬(i / N ≤ j / N ∧
          j / N ≤ i / N + ((len - 1) / N - i / N) ∧ (len - 1) / N - i / N ≠ 0) by omega),
        hd1full _ _ hjoN, if_neg hceq]
  · rw [if_neg hji]
    have hju : j / N ≤ (len - 1) / N := Nat.div_le_div_right (by omega)
    have hciu2 : i / N ≤ j / N := Nat.div_le_div_right (by omega)
    have hk : i / N + ((len - 1) / N - i / N) = (len - 1) / N := by omega
    have hstep := step_pos (N := N) (m := j) hN
    by_cases hO : j % N + 1 = N
    · rw [if_pos hO] at hstep
      obtain ⟨hs1, hs2⟩ := hstep
      have hjNu : j / N + 1 ≤ (len - 1) / N := by
        have h5 : (j + 1) / N ≤ (len - 1) / N := Nat.div_le_div_right (by omega)
        omega
      rw [if_pos (show i / N ≤ j / N ∧
          j / N ≤ i / N + ((len - 1) / N - i / N) ∧ (len - 1) / N - i / N ≠ 0 by omega)]
      rw [if_pos (show j % N = N - 1 by omega)]
      rw [if_pos (show j / N < i / N + ((len - 1) / N - i / N) by omega)]
      rw [hd1full _ _ hN, if_neg (show ¬j / N + 1 = i / N by omega), hs1, hs2]
    · rw [if_neg hO] at hstep
      obtain ⟨hs1, hs2⟩ := hstep
      by_cases hcc : j / N = i / N
      · have hmul : j / N * N = i / N * N := by rw [hcc]
        have hoo2 : ¬j % N < i % N := by omega
        by_cases hcond : i / N ≤ j / N ∧
            j / N ≤ i / N + ((len - 1) / N - i / N) ∧ (len - 1) / N - i / N ≠ 0
        · rw [if_pos hcond, if_neg (show ¬j % N = N - 1 by omega), if_pos hcc,
            hd1full _ _ hjoN, if_pos hcc, if_neg hoo2,
            if_pos (show j % N + 1 < N by omega), hs1, hs2]
        · rw [if_neg hcond, hd1full _ _ hjoN, if_pos hcc, if_neg hoo2,
            if_pos (show j % N + 1 < N by omega), hs1, hs2]
      · have hlt2 : i / N < j / N := by omega
        rw [if_pos (show i / N ≤ j / N ∧
            j / N ≤ i / N + ((len - 1) / N - i / N) ∧ (len - 1) / N - i / N ≠ 0 by omega),
          if_neg (show ¬j % N = N - 1 by omega), if_neg hcc,
          hd1full _ _ (show j % N + 1 < N by omega), if_neg hcc, hs1, hs2]

theorem getElem?_eraseIdx_of_lt {α : Type} (l : List α) (i j : Nat) (hi : i < l.length)
    (hj : j < l.length - 1) :
    (l.eraseIdx i)[j]? = if j < i then l[j]? else l[j + 1]? := by
  rw [List.eraseIdx_eq_take_drop_succ]
  have htl : (l.take i).length = i := by rw [List.length_take]; omega
  by_cases hji : j < i
  · rw [if_pos hji, List.getElem?_append_left (by rw [htl]; omega), List.getElem?_take,
      if_pos hji]
  · rw [if_neg hji, List.getElem?_append_right (by rw [htl]; omega), htl,
      List.getElem?_drop]
    congr 1
    omega

theorem remove_spec {T : Type} {N : Nat} (hN : 0 < N) {s : ChunkedVec T N} {l : List T}
    (h : Represents s l) {i : Nat} (hi : i < l.length) :
    ∃ s', s.remove i = .ok (l[i]?, s') ∧ Represents s' (l.eraseIdx i) ∧
      s'.len = l.length - 1 ∧ s'.cap = s.cap ∧
      s'.data.length = (if l.length - 1 = 0 then 0 else (l.length - 1 + N - 1) / N) := by
  obtain ⟨hlen, hch, hbound, hslots⟩ := h
  have hlen1 : 1 ≤ s.len := by omega
  have he : (l.eraseIdx i).length = l.length - 1 := by
    rw [List.length_eraseIdx]
    simp [hi]
  have hreq_le : (if s.len - 1 = 0 then 0 else (s.len - 1 + N - 1) / N) ≤ s.data.length := by
    rw [requiredChunks_eq hN, chunksFor_le_iff hN]
    omega
  have hd2len : (crossShiftAux N ((s.len - 1) / N - i / N) (i / N)
      (s.data.set (i / N) (shiftChunkLeftFrom N (s.data.getD (i / N) []) (i % N)))).length
      = s.data.length := by
    rw [length_crossShiftAux, List.length_set]
  refine ⟨⟨(crossShiftAux N ((s.len - 1) / N - i / N) (i / N)
      (s.data.set (i / N) (shiftChunkLeftFrom N (s.data.getD (i / N) []) (i % N)))).take
      (if s.len - 1 = 0 then 0 else (s.len - 1 + N - 1) / N), s.cap, s.len - 1⟩,
      ?_, ?_, by show s.len - 1 = l.length - 1; omega, rfl, ?_⟩
  · simp only [ChunkedVec.remove]
    rw [if_neg (show ¬i ≥ s.len by omega)]
    rw [hslots i hi]
  · refine ⟨?_, ?_, ?_, ?_⟩
    · show s.len - 1 = (l.eraseIdx i).length
      omega
    · intro ch hmem
      exact chunks_crossShiftAux _ _ _ (chunks_set_chunk hch (length_mkChunk N _) _)
        ch (List.mem_of_mem_take hmem)
    · show s.len - 1 ≤ ((crossShiftAux N ((s.len - 1) / N - i / N) (i / N)
        (s.data.set (i / N) (shiftChunkLeftFrom N (s.data.getD (i / N) []) (i % N)))).take
        (if s.len - 1 = 0 then 0 else (s.len - 1 + N - 1) / N)).length * N
      rw [List.length_take, hd2len]
      have hmin : min (if s.len - 1 = 0 then 0 else (s.len - 1 + N - 1) / N) s.data.length
          = (if s.len - 1 = 0 then 0 else (s.len - 1 + N - 1) / N) :=
        Nat.min_eq_left hreq_le
      rw [hmin, requiredChunks_eq hN]
      exact le_chunksFor_mul hN _
    · intro j hj
      have hj2 : j < s.len - 1 := by omega
      have hjc : j / N < (if s.len - 1 = 0 then 0 else (s.len - 1 + N - 1) / N) := by
        rw [requiredChunks_eq hN]
        exact div_lt_of_lt_mul' hN (Nat.lt_of_lt_of_le hj2 (le_chunksFor_mul hN _))
      rw [getSlot_take hjc]
      rw [remove_shift_getSlot hN hch hbound (show i < s.len by omega) j hj2]
      rw [getElem?_eraseIdx_of_lt l i j hi (by omega)]
      by_cases hji : j < i
      · rw [if_pos hji, if_pos hji, hslots j (by omega)]
      · rw [if_neg hji, if_neg hji, hslots (j + 1) (by omega)]
  · show ((crossShiftAux N ((s.len - 1) / N - i / N) (i / N)
      (s.data.set (i / N) (shiftChunkLeftFrom N (s.data.getD (i / N) []) (i % N)))).take
      (if s.len - 1 = 0 then 0 else (s.len - 1 + N - 1) / N)).length
      = (if l.length - 1 = 0 then 0 else (l.length - 1 + N - 1) / N)
    rw [List.length_take, hd2len, hlen]
    have hreq_le2 : (if l.length - 1 = 0 then 0 else (l.length - 1 + N - 1) / N)
        ≤ s.data.length := by
      rw [← hlen]
      exact hreq_le
    exact Nat.min_eq_left hreq_le2

/-! ## Correctness of the owning iterator -/

theorem clear_advance_spec {T : Type} {N : Nat} (hN : 0 < N) (it : IntoIter T N) {p : Nat}
    (hc : it.chunk_idx = p / N) (ho : it.offset = p % N) :
    it.clear_current.advance_position =
      ⟨⟨setSlot it.vec.data (p / N) (p % N) none, it.vec.cap, it.vec.len⟩,
        (p + 1) / N, (p + 1) % N, it.remaining - 1⟩ := by
  have hstep := step_pos (N := N) (m := p) hN
  simp only [IntoIter.clear_current, IntoIter.advance_position]
  rw [hc, ho]
  by_cases hON : p % N + 1 = N
  · rw [if_pos hON] at hstep
    obtain ⟨h1, h2⟩ := hstep
    rw [if_pos hON, h1, h2]
  · rw [if_neg hON] at hstep
    obtain ⟨h1, h2⟩ := hstep
    rw [if_neg hON, h1, h2]

theorem advance_remaining {T : Type} {N : Nat} (it : IntoIter T N) :
    it.clear_current.advance_position.remaining = it.remaining - 1 := by
  simp only [IntoIter.clear_current, IntoIter.advance_position]
  by_cases hx : it.offset + 1 = N
  · rw [if_pos hx]
  · rw [if_neg hx]

theorem nextn_eq_stepn {T : Type} {N : Nat} :
    ∀ (k : Nat) (it : IntoIter T N), k ≤ it.remaining → it.nextn k = it.stepn k
  | 0, it, h => rfl
  | k + 1, it, h => by
    have hr : ¬it.remaining = 0 := by omega
    simp only [IntoIter.nextn, IntoIter.next, if_neg hr, IntoIter.stepn]
    rw [nextn_eq_stepn k _ (by rw [advance_remaining]; omega)]

theorem stepn_spec {T : Type} {N : Nat} (hN : 0 < N) :
    ∀ (k p : Nat) (it : IntoIter T N) (g : Nat → Option T),
      it.chunk_idx = p / N → it.offset = p % N →
      (∀ j, j < k → getSlot it.vec.data ((p + j) / N) ((p + j) % N) = g (p + j)) →
      (it.stepn k).1 = (List.range k).map (fun j => g (p + j)) ∧
      (it.stepn k).2.chunk_idx = (p + k) / N ∧
      (it.stepn k).2.offset = (p + k) % N ∧
      (it.stepn k).2.remaining = it.remaining - k ∧
      (it.stepn k).2.vec.len = it.vec.len ∧
      (it.stepn k).2.vec.cap = it.vec.cap ∧
      (it.stepn k).2.vec.data.length = it.vec.data.length ∧
      (∀ q, p + k ≤ q → getSlot (it.stepn k).2.vec.data (q / N) (q % N) =
        getSlot it.vec.data (q / N) (q % N))
  | 0, p, it, g, hc, ho, hs =>
    ⟨rfl, hc, ho, rfl, rfl, rfl, rfl, fun q hq => rfl⟩
  | k + 1, p, it, g, hc, ho, hs => by
    have hadv := clear_advance_spec hN it hc ho
    have hslots' : ∀ j, j < k →
        getSlot (it.clear_current.advance_position).vec.data
          ((p + 1 + j) / N) ((p + 1 + j) % N) = g (p + 1 + j) := by
      intro j hj
      rw [hadv]
      show getSlot (setSlot it.vec.data (p / N) (p % N) none) _ _ = _
      have hne : (p + 1 + j) / N ≠ p / N ∨ (p + 1 + j) % N ≠ p % N := by
        by_contra hcon
        push_neg at hcon
        have : p + 1 + j = p := idx_inj hcon.1 hcon.2
        omega
      rw [getSlot_setSlot_ne hne]
      have harg : p + 1 + j = p + (j + 1) := by omega
      rw [harg]
      exact hs (j + 1) (by omega)
    have hih := stepn_spec hN k (p + 1) it.clear_current.advance_position g
      (by rw [hadv]) (by rw [hadv]) hslots'
    obtain ⟨ih1, ih2, ih3, ih4, ih5, ih6, ih7, ih8⟩ := hih
    have hcur : it.current_read = g p := by
      show getSlot it.vec.data it.chunk_idx it.offset = g p
      rw [hc, ho]
      have := hs 0 (by omega)
      rw [Nat.add_zero] at this
      exact this
    have hrange : (List.range (k + 1)).map (fun j => g (p + j)) =
        g p :: (List.range k).map (fun j => g (p + 1 + j)) := by
      rw [List.range_succ_eq_map, List.map_cons, List.map_map]
      congr 1
      refine List.map_congr_left fun j hj => ?_
      show g (p + (j + 1)) = g (p + 1 + j)
      congr 1
      omega
    refine ⟨?_, ?_, ?_, ?_, ?_, ?_, ?_, ?_⟩
    · show it.current_read :: (it.clear_current.advance_position.stepn k).1 = _
      rw [hrange, hcur, ih1]
    · show (it.clear_current.advance_position.stepn k).2.chunk_idx = _
      rw [ih2]
      congr 1
      omega
    · show (it.clear_current.advance_position.stepn k).2.offset = _
      rw [ih3]
      congr 1
      omega
    · show (it.clear_current.advance_position.stepn k).2.remaining = _
      rw [ih4, hadv]
      show it.remaining - 1 - k = it.remaining - (k + 1)
      omega
    · show (it.clear_current.advance_position.stepn k).2.vec.len = _
      rw [ih5, hadv]
    · show (it.clear_current.advance_position.stepn k).2.vec.cap = _
      rw [ih6, hadv]
    · show (it.clear_current.advance_position.stepn k).2.vec.data.length = _
      rw [ih7, hadv]
      show (setSlot it.vec.data (p / N) (p % N) none).length = _
      rw [length_setSlot]
    · intro q hq
      show getSlot (it.clear_current.advance_position.stepn k).2.vec.data (q / N) (q % N) = _
      rw [ih8 q (by omega), hadv]
      show getSlot (setSlot it.vec.data (p / N) (p % N) none) _ _ = _
      have hne : q / N ≠ p / N ∨ q % N ≠ p % N := by
        by_contra hcon
        push_neg at hcon
        have : q = p := idx_inj hcon.1 hcon.2
        omega
      rw [getSlot_setSlot_ne hne]

/-! ## The reachable-state invariant -/

theorem push_len {T : Type} {N : Nat} (s : ChunkedVec T N) (v : T) :
    (s.push v).len = s.len + 1 := by
  simp only [ChunkedVec.push]
  by_cases h : s.len / N ≥ s.data.length
  · rw [if_pos h]
  · rw [if_neg h]

theorem remove_ok_lt {T : Type} {N : Nat} {s : ChunkedVec T N} {i : Nat} {r : Option T}
    {s' : ChunkedVec T N} (heq : s.remove i = .ok (r, s')) : i < s.len := by
  by_cases h : i ≥ s.len
  · simp only [ChunkedVec.remove, if_pos h] at heq
    exact absurd heq (by simp)
  · omega

theorem swap_ok_lt {T : Type} {N : Nat} {s : ChunkedVec T N} {i : Nat} {r : Option T}
    {s' : ChunkedVec T N} (heq : s.swap_remove i = .ok (r, s')) : i < s.len := by
  by_cases h : i ≥ s.len
  · simp only [ChunkedVec.swap_remove, if_pos h] at heq
    exact absurd heq (by simp)
  · omega

theorem reachable_inv {T : Type} {N : Nat} (hN : 0 < N) :
    ∀ {b : Bool} {s : ChunkedVec T N}, ReachableW T N b s →
      GoodState s ∧ (b = false → Tight s) := by
  intro b s hr
  induction hr with
  | new =>
    refine ⟨⟨Nat.le_refl 0, [], new_represents N⟩, fun _ => ?_⟩
    show (0 : Nat) = (0 + N - 1) / N
    rw [Nat.div_eq_of_lt (by omega)]
  | @push b s v hr ih =>
    obtain ⟨⟨hcap, l, hrep⟩, htight⟩ := ih
    obtain ⟨hrep', hdl, hcp⟩ := push_spec hN hrep v
    refine ⟨⟨?_, l ++ [v], hrep'⟩, fun hb => ?_⟩
    · rw [hdl, hcp]
      by_cases hcase : s.data.length ≤ s.len / N
      · rw [if_pos hcase, if_pos hcase, vecPushCap]
        by_cases h2 : s.data.length + 1 ≤ s.cap
        · rw [if_pos h2]
          omega
        · rw [if_neg h2]
          have h3 := Nat.le_max_right (2 * s.cap) (s.data.length + 1)
          omega
      · rw [if_neg hcase, if_neg hcase]
        exact hcap
    · have ht := htight hb
      show (s.push v).data.length = ((s.push v).len + N - 1) / N
      rw [hdl, push_len, chunksFor_succ hN]
      have hb2 : s.len ≤ s.data.length * N := hrep.2.2.1
      by_cases hcase : s.data.length ≤ s.len / N
      · rw [if_pos hcase]
        have h3 : s.len / N ≤ s.data.length := div_le_of_le_mul' hN hb2
        rw [Tight] at ht
        omega
      · rw [if_neg hcase]
        have h4 := chunksFor_le_succ_div hN s.len
        rw [Tight] at ht
        omega
  | @resizeOp b s m v hr ih =>
    obtain ⟨⟨hcap, l, hrep⟩, htight⟩ := ih
    rcases Nat.lt_trichotomy m s.len with hm | hm | hm
    · obtain ⟨s2, heq2, hrep2, hlen2, hcap2, hdl2⟩ :=
        resize_shrink_spec hN hrep (show m < l.length by have := hrep.1; omega) v
      rw [heq2]
      refine ⟨⟨?_, l.take m, hrep2⟩, fun hb => ?_⟩
      · rw [hdl2, hcap2]
        have h1 : (m + N - 1) / N ≤ s.data.length := by
          rw [chunksFor_le_iff hN]
          have := hrep.2.2.1
          have := hrep.1
          omega
        omega
      · show s2.data.length = (s2.len + N - 1) / N
        rw [hdl2, hlen2]
    · rw [hm, resize_self_spec]
      exact ⟨⟨hcap, l, hrep⟩, htight⟩
    · obtain ⟨s2, heq2, hrep2, hlen2, hdl2, hcap2⟩ :=
        resize_grow_spec hN hrep (show l.length < m by have := hrep.1; omega) v
      rw [heq2]
      refine ⟨⟨hcap2 hcap, l ++ List.replicate (m - l.length) v, hrep2⟩, fun hb => ?_⟩
      · have ht := htight hb
        rw [Tight] at ht
        show s2.data.length = (s2.len + N - 1) / N
        rw [hdl2, hlen2]
        have hmono : (s.len + N - 1) / N ≤ (m + N - 1) / N :=
          chunksFor_mono hN (by omega)
        have hl : s.len = l.length := hrep.1
        omega
  | @removeOp b s s' r i hr heq ih =>
    obtain ⟨⟨hcap, l, hrep⟩, htight⟩ := ih
    have hi : i < l.length := by
      have := remove_ok_lt heq
      have := hrep.1
      omega
    obtain ⟨s2, heq2, hrep2, hlen2, hcap2, hdl2⟩ := remove_spec hN hrep hi
    rw [heq] at heq2
    have hs2 : s' = s2 := by
      have h1 := (Except.ok.injEq _ _).mp heq2
      exact (Prod.mk.injEq _ _ _ _).mp h1 |>.2
    subst hs2
    refine ⟨⟨?_, l.eraseIdx i, hrep2⟩, fun hb => ?_⟩
    · rw [hdl2, hcap2, requiredChunks_eq hN]
      have h1 : (l.length - 1 + N - 1) / N ≤ s.data.length := by
        rw [chunksFor_le_iff hN]
        have := hrep.2.2.1
        have := hrep.1
        omega
      omega
    · show s'.data.length = (s'.len + N - 1) / N
      rw [hdl2, hlen2, requiredChunks_eq hN]
  | @swapOp s s' r i hr heq ih =>
    obtain ⟨⟨hcap, l, hrep⟩, htight⟩ := ih
    have hi : i < l.length := by
      have := swap_ok_lt heq
      have := hrep.1
      omega
    have hne : l ≠ [] := by
      intro hcon
      rw [hcon] at hi
      exact absurd hi (by simp)
    have hrep' : Represents s (l.dropLast ++ [l.getLast hne]) := by
      rw [List.dropLast_append_getLast]
      exact hrep
    have hi' : i < l.dropLast.length + 1 := by
      rw [List.length_dropLast]
      omega
    obtain ⟨s2, heq2, hrep2, hdl2, hcap2, hlen2⟩ := swap_remove_spec hN hrep' hi'
    rw [heq] at heq2
    have hs2 : s' = s2 := by
      have h1 := (Except.ok.injEq _ _).mp heq2
      exact (Prod.mk.injEq _ _ _ _).mp h1 |>.2
    subst hs2
    exact ⟨⟨by rw [hdl2, hcap2]; exact hcap,
      l.dropLast.set i (l.getLast hne), hrep2⟩, fun hb => by cases hb⟩

theorem pushAll_reachable {T : Type} {N : Nat} {b : Bool} :
    ∀ (vs : List T) {s : ChunkedVec T N},
      ReachableW T N b s → ReachableW T N b (s.pushAll vs)
  | [], s, h => h
  | v :: vs, s, h => by
    show ReachableW T N b ((s.push v).pushAll vs)
    exact pushAll_reachable vs (ReachableW.push v h)

/-! ## The claims -/

/-- C1: for every container holding elements `l` (chunk size `N`) and
every `index < len`, `remove index` returns the element previously at
`index`, preserves the relative order of all other elements (the result
represents `l.eraseIdx index`, so each element formerly at position
`j > index` ends at `j - 1`, across chunk boundaries), decrements `len`
by exactly one, and truncates trailing unused chunks exactly as in
shrinking `resize` (`if new_len = 0 then 0 else ceil(new_len / N)`
chunks). -/
theorem C1_remove_order_preserving {T : Type} {N : Nat} (hN : 0 < N)
    (s : ChunkedVec T N) (l : List T) (h : Represents s l) (index : Nat)
    (hi : index < l.length) :
    ∃ s', s.remove index = .ok (l[index]?, s') ∧
      Represents s' (l.eraseIdx index) ∧
      s'.len = l.length - 1 ∧
      s'.data.length = (if l.length - 1 = 0 then 0 else (l.length - 1 + N - 1) / N) :=
  let ⟨s', h1, h2, h3, _, h5⟩ := remove_spec hN h hi
  ⟨s', h1, h2, h3, h5⟩

/-- C1 witness: removing index 2 from `[1,2,3,4,5,6]` at chunk size 3
returns `3` and yields `[1,2,4,5,6]`. -/
theorem C1_witness :
    ∃ s', ((ChunkedVec.new Nat 3).pushAll [1, 2, 3, 4, 5, 6]).remove 2 =
        .ok (([1, 2, 3, 4, 5, 6] : List Nat)[2]?, s') ∧
      Represents s' (([1, 2, 3, 4, 5, 6] : List Nat).eraseIdx 2) ∧
      s'.len = ([1, 2, 3, 4, 5, 6] : List Nat).length - 1 ∧
      s'.data.length = (if ([1, 2, 3, 4, 5, 6] : List Nat).length - 1 = 0 then 0
        else (([1, 2, 3, 4, 5, 6] : List Nat).length - 1 + 3 - 1) / 3) :=
  C1_remove_order_preserving (by decide) _ [1, 2, 3, 4, 5, 6] (by decide) 2 (by decide)

/-- C2: for every container holding `l0 ++ [z]` and every
`index < len`, `swap_remove index` returns the element previously at
`index`, replaces slot `index` with the former last element `z` (a
no-op move when `index = len - 1`, since then `l0.set index z = l0`),
decrements `len` by one without shifting or changing any other element
(the result represents `l0.set index z`), and does not truncate chunks:
the chunk count and the backing capacity are unchanged. -/
theorem C2_swap_remove_no_truncate {T : Type} {N : Nat} (hN : 0 < N)
    (s : ChunkedVec T N) (l0 : List T) (z : T) (h : Represents s (l0 ++ [z]))
    (index : Nat) (hi : index < l0.length + 1) :
    ∃ s', s.swap_remove index = .ok ((l0 ++ [z])[index]?, s') ∧
      Represents s' (l0.set index z) ∧
      s'.len = l0.length ∧
      s'.data.length = s.data.length ∧ s'.cap = s.cap :=
  let ⟨s', h1, h2, h3, h4, h5⟩ := swap_remove_spec hN h hi
  ⟨s', h1, h2, h5, h3, h4⟩

/-- C2 witness: `swap_remove 1` on `["foo","bar","baz","qux"]` (chunk
size 2) returns `"bar"` and leaves `["foo","qux","baz"]`. -/
theorem C2_witness :
    ∃ s', ((ChunkedVec.new String 2).pushAll ["foo", "bar", "baz", "qux"]).swap_remove 1 =
        .ok ((["foo", "bar", "baz"] ++ ["qux"])[1]?, s') ∧
      Represents s' (["foo", "bar", "baz"].set 1 "qux") ∧
      s'.len = (["foo", "bar", "baz"] : List String).length ∧
      s'.data.length = ((ChunkedVec.new String 2).pushAll ["foo", "bar", "baz", "qux"]).data.length ∧
      s'.cap = ((ChunkedVec.new String 2).pushAll ["foo", "bar", "baz", "qux"]).cap :=
  C2_swap_remove_no_truncate (by decide) _ ["foo", "bar", "baz"] "qux" (by decide) 1 (by decide)

/-- C4: after pushing the sequence `vs` into an empty container, `len`
equals the number of pushes, and for every `i < len`, `get i` returns
(a reference to a live slot holding) the `i`-th pushed value. -/
theorem C4_push_then_get {T : Type} {N : Nat} (hN : 0 < N) (vs : List T) :
    ((ChunkedVec.new T N).pushAll vs).len = vs.length ∧
    ∀ i, i < vs.length → ((ChunkedVec.new T N).pushAll vs).get i = some vs[i]? := by
  have hrep := pushAll_represents hN vs (new_represents N)
  rw [List.nil_append] at hrep
  refine ⟨hrep.1, fun i hi => ?_⟩
  rw [ChunkedVec.get, if_neg (show ¬i ≥ ((ChunkedVec.new T N).pushAll vs).len by
    rw [hrep.1]; omega)]
  rw [ChunkedVec.get_unchecked, hrep.2.2.2 i hi]

/-- C4 witness: five pushes at chunk size 2. -/
theorem C4_witness :
    ((ChunkedVec.new Nat 2).pushAll [10, 20, 30, 40, 50]).len =
      ([10, 20, 30, 40, 50] : List Nat).length ∧
    ∀ i, i < ([10, 20, 30, 40, 50] : List Nat).length →
      ((ChunkedVec.new Nat 2).pushAll [10, 20, 30, 40, 50]).get i =
        some ([10, 20, 30, 40, 50] : List Nat)[i]? :=
  C4_push_then_get (by decide) [10, 20, 30, 40, 50]

/-- C5: pushing `vs` into an empty container and fully consuming the
owning iterator yields exactly `vs` in order; afterwards `next` returns
`none`, and discarding the iterator destroys nothing further and leaves
the source container with `len = 0`. -/
theorem C5_into_iter_roundtrip {T : Type} {N : Nat} (hN : 0 < N) (vs : List T) :
    (((ChunkedVec.new T N).pushAll vs).into_iter.nextn vs.length).1 = vs.map some ∧
    (((ChunkedVec.new T N).pushAll vs).into_iter.nextn vs.length).2.next = none ∧
    (((ChunkedVec.new T N).pushAll vs).into_iter.nextn vs.length).2.drop.1 = [] ∧
    (((ChunkedVec.new T N).pushAll vs).into_iter.nextn vs.length).2.drop.2.len = 0 := by
  have hrep := pushAll_represents hN vs (new_represents N)
  rw [List.nil_append] at hrep
  have hrem : (((ChunkedVec.new T N).pushAll vs).into_iter).remaining = vs.length := hrep.1
  have hc0 : (((ChunkedVec.new T N).pushAll vs).into_iter).chunk_idx = 0 / N := by
    rw [Nat.zero_div]
    rfl
  have ho0 : (((ChunkedVec.new T N).pushAll vs).into_iter).offset = 0 % N := by
    rw [Nat.zero_mod]
    rfl
  have hs0 : ∀ j, j < vs.length →
      getSlot (((ChunkedVec.new T N).pushAll vs).into_iter).vec.data
        ((0 + j) / N) ((0 + j) % N) = vs[0 + j]? := by
    intro j hj
    rw [Nat.zero_add]
    exact hrep.2.2.2 j hj
  obtain ⟨h1, h2, h3, h4, h5, h6, h7, h8⟩ :=
    stepn_spec hN vs.length 0 (((ChunkedVec.new T N).pushAll vs).into_iter)
      (fun q => vs[q]?) hc0 ho0 hs0
  have hnn : (((ChunkedVec.new T N).pushAll vs).into_iter).nextn vs.length =
      (((ChunkedVec.new T N).pushAll vs).into_iter).stepn vs.length :=
    nextn_eq_stepn _ _ (by rw [hrem])
  rw [hnn]
  have hrem2 : ((((ChunkedVec.new T N).pushAll vs).into_iter).stepn vs.length).2.remaining
      = 0 := by
    rw [h4, hrem]
    omega
  refine ⟨?_, ?_, ?_, ?_⟩
  · rw [h1]
    refine List.ext_getElem? fun i => ?_
    rw [List.getElem?_map, List.getElem?_map]
    by_cases hi : i < vs.length
    · rw [List.getElem?_range hi, List.getElem?_eq_getElem hi]
      show some (vs[0 + i]?) = some (some vs[i])
      rw [Nat.zero_add, List.getElem?_eq_getElem hi]
    · rw [List.getElem?_eq_none
          (show (List.range vs.length).length ≤ i by simpa using Nat.le_of_not_lt hi),
        List.getElem?_eq_none (Nat.le_of_not_lt hi)]
      rfl
  · rw [IntoIter.next, if_pos hrem2]
  · simp only [IntoIter.drop, IntoIter.drop_remaining, hrem2, IntoIter.stepn]
  · simp only [IntoIter.drop, IntoIter.drop_remaining, hrem2, IntoIter.stepn]

/-- C5 witness: round-trip on `[7, 8, 9]` at chunk size 2. -/
theorem C5_witness :
    (((ChunkedVec.new Nat 2).pushAll [7, 8, 9]).into_iter.nextn
        ([7, 8, 9] : List Nat).length).1 = ([7, 8, 9] : List Nat).map some ∧
    (((ChunkedVec.new Nat 2).pushAll [7, 8, 9]).into_iter.nextn
        ([7, 8, 9] : List Nat).length).2.next = none ∧
    (((ChunkedVec.new Nat 2).pushAll [7, 8, 9]).into_iter.nextn
        ([7, 8, 9] : List Nat).length).2.drop.1 = [] ∧
    (((ChunkedVec.new Nat 2).pushAll [7, 8, 9]).into_iter.nextn
        ([7, 8, 9] : List Nat).length).2.drop.2.len = 0 :=
  C5_into_iter_roundtrip (by decide) [7, 8, 9]

/-- C6: pushing `vs` into an empty container, consuming `m < len`
elements through the owning iterator and then discarding it destroys
exactly the not-yet-yielded elements `vs.drop m`, once each, in order;
the source container's length becomes 0, so its own destruction
(modelled by `dropElems`) destroys nothing further. -/
theorem C6_partial_consumption_drop {T : Type} {N : Nat} (hN : 0 < N) (vs : List T)
    (m : Nat) (hm : m < vs.length) :
    ((((ChunkedVec.new T N).pushAll vs).into_iter.nextn m).2.drop).1 =
      (vs.drop m).map some ∧
    ((((ChunkedVec.new T N).pushAll vs).into_iter.nextn m).2.drop).2.len = 0 ∧
    ((((ChunkedVec.new T N).pushAll vs).into_iter.nextn m).2.drop).2.dropElems = [] := by
  have hrep := pushAll_represents hN vs (new_represents N)
  rw [List.nil_append] at hrep
  have hrem : (((ChunkedVec.new T N).pushAll vs).into_iter).remaining = vs.length := hrep.1
  have hc0 : (((ChunkedVec.new T N).pushAll vs).into_iter).chunk_idx = 0 / N := by
    rw [Nat.zero_div]
    rfl
  have ho0 : (((ChunkedVec.new T N).pushAll vs).into_iter).offset = 0 % N := by
    rw [Nat.zero_mod]
    rfl
  have hs0 : ∀ j, j < m →
      getSlot (((ChunkedVec.new T N).pushAll vs).into_iter).vec.data
        ((0 + j) / N) ((0 + j) % N) = vs[0 + j]? := by
    intro j hj
    rw [Nat.zero_add]
    exact hrep.2.2.2 j (by omega)
  obtain ⟨h1, h2, h3, h4, h5, h6, h7, h8⟩ :=
    stepn_spec hN m 0 (((ChunkedVec.new T N).pushAll vs).into_iter)
      (fun q => vs[q]?) hc0 ho0 hs0
  have hnn : (((ChunkedVec.new T N).pushAll vs).into_iter).nextn m =
      (((ChunkedVec.new T N).pushAll vs).into_iter).stepn m :=
    nextn_eq_stepn _ _ (by rw [hrem]; omega)
  rw [hnn]
  rw [Nat.zero_add] at h2 h3
  have hrem2 : ((((ChunkedVec.new T N).pushAll vs).into_iter).stepn m).2.remaining
      = vs.length - m := by
    rw [h4, hrem]
  have hs1 : ∀ j, j < vs.length - m →
      getSlot ((((ChunkedVec.new T N).pushAll vs).into_iter).stepn m).2.vec.data
        ((m + j) / N) ((m + j) % N) = vs[m + j]? := by
    intro j hj
    rw [h8 (m + j) (by omega)]
    exact hrep.2.2.2 (m + j) (by omega)
  obtain ⟨g1, g2, g3, g4, g5, g6, g7, g8⟩ :=
    stepn_spec hN (vs.length - m) m ((((ChunkedVec.new T N).pushAll vs).into_iter).stepn m).2
      (fun q => vs[q]?) h2 h3 hs1
  have hdrop : ((((ChunkedVec.new T N).pushAll vs).into_iter).stepn m).2.drop_remaining =
      ((((ChunkedVec.new T N).pushAll vs).into_iter).stepn m).2.stepn (vs.length - m) := by
    rw [IntoIter.drop_remaining, hrem2]
  refine ⟨?_, rfl, ?_⟩
  · show ((((ChunkedVec.new T N).pushAll vs).into_iter).stepn m).2.drop_remaining.1 =
      (vs.drop m).map some
    rw [hdrop, g1]
    refine List.ext_getElem? fun i => ?_
    rw [List.getElem?_map, List.getElem?_map]
    by_cases hi : i < vs.length - m
    · rw [List.getElem?_range hi, List.getElem?_drop]
      show some (vs[m + i]?) = (vs[m + i]?).map some
      rw [List.getElem?_eq_getElem (show m + i < vs.length by omega)]
      rfl
    · rw [List.getElem?_eq_none
          (show (List.range (vs.length - m)).length ≤ i by simpa using Nat.le_of_not_lt hi),
        List.getElem?_eq_none (show (vs.drop m).length ≤ i by rw [List.length_drop]; omega)]
      rfl
  · rfl

/-- C6 witness: push `[1,2,3,4,5]` at chunk size 2, consume 2, discard. -/
theorem C6_witness :
    ((((ChunkedVec.new Nat 2).pushAll [1, 2, 3, 4, 5]).into_iter.nextn 2).2.drop).1 =
      (([1, 2, 3, 4, 5] : List Nat).drop 2).map some ∧
    ((((ChunkedVec.new Nat 2).pushAll [1, 2, 3, 4, 5]).into_iter.nextn 2).2.drop).2.len = 0 ∧
    ((((ChunkedVec.new Nat 2).pushAll [1, 2, 3, 4, 5]).into_iter.nextn 2).2.drop).2.dropElems
      = [] :=
  C6_partial_consumption_drop (by decide) [1, 2, 3, 4, 5] 2 (by decide)

/-- C7: shrinking `resize m value` on a container holding `l` with
`m < len` destroys exactly the elements at logical indices `[m, len)`,
once each, in index order (the returned destruction log is
`(l.drop m).map some`), leaves the elements at `[0, m)` unchanged, sets
`len` to `m`, and sets `allocated_capacity` to `N * ceil(m / N)`
(0 chunks when `m = 0`, since then `ceil(m / N) = 0`). -/
theorem C7_resize_shrink_drops {T : Type} {N : Nat} (hN : 0 < N) (s : ChunkedVec T N)
    (l : List T) (h : Represents s l) (m : Nat) (hm : m < l.length) (value : T) :
    ∃ s', s.resize m value = (s', (l.drop m).map some) ∧
      Represents s' (l.take m) ∧ s'.len = m ∧
      s'.allocated_capacity = N * ((m + N - 1) / N) := by
  obtain ⟨s', h1, h2, h3, h4, h5⟩ := resize_shrink_spec hN h hm value
  exact ⟨s', h1, h2, h3, by rw [ChunkedVec.allocated_capacity, h5, Nat.mul_comm]⟩

/-- C7 witness: shrinking `[1..7]` at chunk size 3 to length 4 drops
`5, 6, 7` and leaves 2 chunks. -/
theorem C7_witness :
    ∃ s', ((ChunkedVec.new Nat 3).pushAll [1, 2, 3, 4, 5, 6, 7]).resize 4 0 =
        (s', (([1, 2, 3, 4, 5, 6, 7] : List Nat).drop 4).map some) ∧
      Represents s' (([1, 2, 3, 4, 5, 6, 7] : List Nat).take 4) ∧ s'.len = 4 ∧
      s'.allocated_capacity = 3 * ((4 + 3 - 1) / 3) :=
  C7_resize_shrink_drops (by decide) _ [1, 2, 3, 4, 5, 6, 7] (by decide) 4 (by decide) 0

/-- C8: for every container and index, the checked queries `get` and
`get_mut` return `none` exactly when `index ≥ len` (never a panic),
while indexing, `remove` and `swap_remove` panic exactly then, each
with a message containing the decimal forms of the requested index and
of the current length; for `index < len` none of the six operations
panics. -/
theorem C8_bounds_behavior {T : Type} {N : Nat} (s : ChunkedVec T N) (index : Nat) :
    (index ≥ s.len →
      s.get index = none ∧ s.get_mut index = none ∧
      (∃ e, s.index index = .error e ∧ containsStr e (toString index) ∧
        containsStr e (toString s.len)) ∧
      (∃ e, s.index_mut index = .error e ∧ containsStr e (toString index) ∧
        containsStr e (toString s.len)) ∧
      (∃ e, s.remove index = .error e ∧ containsStr e (toString index) ∧
        containsStr e (toString s.len)) ∧
      (∃ e, s.swap_remove index = .error e ∧ containsStr e (toString index) ∧
        containsStr e (toString s.len))) ∧
    (index < s.len →
      (s.get index).isSome = true ∧ (s.get_mut index).isSome = true ∧
      (s.index index).isOk = true ∧ (s.index_mut index).isOk = true ∧
      (s.remove index).isOk = true ∧ (s.swap_remove index).isOk = true) := by
  constructor
  · intro hge
    refine ⟨by rw [ChunkedVec.get, if_pos hge], by rw [ChunkedVec.get_mut, if_pos hge],
      ?_, ?_, ?_, ?_⟩
    · refine ⟨"Index out of bounds: index " ++ toString index ++ " >= length " ++
        toString s.len, by rw [ChunkedVec.index, if_pos hge], ?_, ?_⟩
      · exact ⟨"Index out of bounds: index ", " >= length " ++ toString s.len,
          by simp only [String.append_assoc]⟩
      · exact ⟨"Index out of bounds: index " ++ toString index ++ " >= length ", "",
          by simp only [String.append_assoc, String.append_empty]⟩
    · refine ⟨"Index out of bounds: index " ++ toString index ++ " >= length " ++
        toString s.len, by rw [ChunkedVec.index_mut, if_pos hge], ?_, ?_⟩
      · exact ⟨"Index out of bounds: index ", " >= length " ++ toString s.len,
          by simp only [String.append_assoc]⟩
      · exact ⟨"Index out of bounds: index " ++ toString index ++ " >= length ", "",
          by simp only [String.append_assoc, String.append_empty]⟩
    · refine ⟨"removal index (is " ++ toString index ++ ") should be < len (is " ++
        toString s.len ++ ")", by simp only [ChunkedVec.remove, if_pos hge], ?_, ?_⟩
      · exact ⟨"removal index (is ", ") should be < len (is " ++ toString s.len ++ ")",
          by simp only [String.append_assoc]⟩
      · exact ⟨"removal index (is " ++ toString index ++ ") should be < len (is ", ")",
          by simp only [String.append_assoc]⟩
    · refine ⟨"swap_remove index (is " ++ toString index ++ ") should be < len (is " ++
        toString s.len ++ ")", by simp only [ChunkedVec.swap_remove, if_pos hge], ?_, ?_⟩
      · exact ⟨"swap_remove index (is ", ") should be < len (is " ++ toString s.len ++ ")",
          by simp only [String.append_assoc]⟩
      · exact ⟨"swap_remove index (is " ++ toString index ++ ") should be < len (is ", ")",
          by simp only [String.append_assoc]⟩
  · intro hlt
    have hng : ¬index ≥ s.len := by omega
    refine ⟨by rw [ChunkedVec.get, if_neg hng]; rfl,
      by rw [ChunkedVec.get_mut, if_neg hng]; rfl,
      by rw [ChunkedVec.index, if_neg hng]; rfl,
      by rw [ChunkedVec.index_mut, if_neg hng]; rfl,
      by simp only [ChunkedVec.remove, if_neg hng]; rfl,
      by simp only [ChunkedVec.swap_remove, if_neg hng]; rfl⟩

/-- C8 witness: both bounds regimes on a concrete 3-element container. -/
theorem C8_witness :
    ((ChunkedVec.new Nat 3).pushAll [1, 2, 3]).get 5 = none ∧
    (∃ e, ((ChunkedVec.new Nat 3).pushAll [1, 2, 3]).remove 5 = .error e ∧
      containsStr e (toString 5) ∧
      containsStr e (toString ((ChunkedVec.new Nat 3).pushAll [1, 2, 3]).len)) ∧
    (((ChunkedVec.new Nat 3).pushAll [1, 2, 3]).remove 1).isOk = true := by
  have h5 := C8_bounds_behavior ((ChunkedVec.new Nat 3).pushAll [1, 2, 3]) 5
  have h1 := C8_bounds_behavior ((ChunkedVec.new Nat 3).pushAll [1, 2, 3]) 1
  exact ⟨(h5.1 (by decide)).1, (h5.1 (by decide)).2.2.2.2.1, (h1.2 (by decide)).2.2.2.2.1⟩

/-- C9: after pushing `k` values into an empty container with chunk
size `N`, `allocated_capacity` equals `N * ceil(k / N)`; and in every
reachable state, `capacity ≥ allocated_capacity`. -/
theorem C9_allocated_capacity {T : Type} {N : Nat} (hN : 0 < N) :
    (∀ vs : List T, ((ChunkedVec.new T N).pushAll vs).allocated_capacity =
      N * ((vs.length + N - 1) / N)) ∧
    ∀ s : ChunkedVec T N, Reachable s → s.allocated_capacity ≤ s.capacity := by
  constructor
  · intro vs
    have hreach : ReachableW T N false ((ChunkedVec.new T N).pushAll vs) :=
      pushAll_reachable vs ReachableW.new
    have ht := (reachable_inv hN hreach).2 rfl
    have hrep := pushAll_represents hN vs (new_represents N)
    rw [List.nil_append] at hrep
    rw [ChunkedVec.allocated_capacity]
    rw [Tight] at ht
    rw [ht, hrep.1, Nat.mul_comm]
  · intro s hs
    obtain ⟨⟨hcap, l, hrep⟩, _⟩ := reachable_inv hN hs
    rw [ChunkedVec.allocated_capacity, ChunkedVec.capacity]
    exact Nat.mul_le_mul_right _ hcap

/-- C9 witness: 4 pushes at chunk size 3 allocate `3 * ceil(4/3) = 6`
slots; capacity dominates allocated capacity on that state. -/
theorem C9_witness :
    ((ChunkedVec.new Nat 3).pushAll [1, 2, 3, 4]).allocated_capacity =
      3 * ((([1, 2, 3, 4] : List Nat).length + 3 - 1) / 3) ∧
    ((ChunkedVec.new Nat 3).pushAll [1, 2, 3, 4]).allocated_capacity ≤
      ((ChunkedVec.new Nat 3).pushAll [1, 2, 3, 4]).capacity :=
  ⟨(C9_allocated_capacity (by decide)).1 [1, 2, 3, 4],
    (C9_allocated_capacity (by decide)).2 _ (pushAll_reachable [1, 2, 3, 4] ReachableW.new)⟩

/-- C10: in every reachable state, if `push` would find the target
chunk missing (`len / N ≥ chunk_count`) then `len % N = 0`, so the
internal `assert_eq!(offset, 0)` never fails; equivalently
`len ≤ chunk_count * N` always holds. -/
theorem C10_push_assert_holds {T : Type} {N : Nat} (hN : 0 < N) (s : ChunkedVec T N)
    (h : Reachable s) :
    (s.data.length ≤ s.len / N → s.len % N = 0) ∧ s.len ≤ s.data.length * N := by
  obtain ⟨⟨hcap, l, hrep⟩, _⟩ := reachable_inv hN h
  have hb := hrep.2.2.1
  refine ⟨fun hge => ?_, hb⟩
  have h1 : s.len / N ≤ s.data.length := div_le_of_le_mul' hN hb
  have h2 : s.len / N = s.data.length := Nat.le_antisymm h1 hge
  have h3 : s.data.length * N ≤ s.len := by
    calc s.data.length * N = s.len / N * N := by rw [h2]
      _ ≤ s.len := Nat.div_mul_le_self _ _
  have h4 : s.len = s.data.length * N := Nat.le_antisymm hb h3
  rw [h4, Nat.mul_mod_left]

/-- C10 witness: the invariant at the state after 4 pushes, chunk size 3. -/
theorem C10_witness :
    (((ChunkedVec.new Nat 3).pushAll [1, 2, 3, 4]).data.length ≤
        ((ChunkedVec.new Nat 3).pushAll [1, 2, 3, 4]).len / 3 →
      ((ChunkedVec.new Nat 3).pushAll [1, 2, 3, 4]).len % 3 = 0) ∧
    ((ChunkedVec.new Nat 3).pushAll [1, 2, 3, 4]).len ≤
      ((ChunkedVec.new Nat 3).pushAll [1, 2, 3, 4]).data.length * 3 :=
  C10_push_assert_holds (by decide) _ (pushAll_reachable [1, 2, 3, 4] ReachableW.new)

/-- C3 counterexample: the claim "chunk count equals `ceil(len / N)` in
every reachable state, except transiently during growth" is false:
pushing `1, 2, 3, 4` into an empty `ChunkedVec Nat 3` and calling
`swap_remove 0` — a removal, not growth — reaches a state with `len = 3`
but 2 allocated chunks, while `ceil(3 / 3) = 1`. -/
theorem C3_counterexample :
    Reachable swapRemoveLeftover ∧
    ((ChunkedVec.new Nat 3).pushAll [1, 2, 3, 4]).swap_remove 0 =
      .ok (some 1, swapRemoveLeftover) ∧
    swapRemoveLeftover.len = 3 ∧ swapRemoveLeftover.data.length = 2 ∧
    ¬swapRemoveLeftover.data.length = (swapRemoveLeftover.len + 3 - 1) / 3 := by
  have heq : ((ChunkedVec.new Nat 3).pushAll [1, 2, 3, 4]).swap_remove 0 =
      .ok (some 1, swapRemoveLeftover) := rfl
  exact ⟨ReachableW.swapOp 0 (pushAll_reachable [1, 2, 3, 4] ReachableW.new) heq,
    heq, rfl, rfl, by decide⟩

/-- C3 (amended): in every state reachable through the public
operations the chunk count is at least `ceil(len / N)` (enough chunks
for the live elements); it equals `ceil(len / N)` in every state
reachable without `swap_remove`, whose pure length decrement is — along
with transient growth pre-reservation — the only way chunks can exceed
the minimum. -/
theorem C3_chunk_count_minimal {T : Type} {N : Nat} (hN : 0 < N) (b : Bool)
    (s : ChunkedVec T N) (h : ReachableW T N b s) :
    (s.len + N - 1) / N ≤ s.data.length ∧
    (b = false → s.data.length = (s.len + N - 1) / N) := by
  obtain ⟨⟨hcap, l, hrep⟩, htight⟩ := reachable_inv hN h
  refine ⟨?_, fun hb => htight hb⟩
  rw [chunksFor_le_iff hN]
  have h1 := hrep.2.2.1
  have h2 := hrep.1
  omega

/-- C3 witness: the lower bound on the leftover state, and exactness
after 4 pushes without `swap_remove`. -/
theorem C3_witness :
    ((swapRemoveLeftover.len + 3 - 1) / 3 ≤ swapRemoveLeftover.data.length) ∧
    ((((ChunkedVec.new Nat 3).pushAll [1, 2, 3, 4]).len + 3 - 1) / 3 ≤
        ((ChunkedVec.new Nat 3).pushAll [1, 2, 3, 4]).data.length ∧
      ((false = false) → ((ChunkedVec.new Nat 3).pushAll [1, 2, 3, 4]).data.length =
        (((ChunkedVec.new Nat 3).pushAll [1, 2, 3, 4]).len + 3 - 1) / 3)) := by
  have heq : ((ChunkedVec.new Nat 3).pushAll [1, 2, 3, 4]).swap_remove 0 =
      .ok (some 1, swapRemoveLeftover) := rfl
  refine ⟨?_, C3_chunk_count_minimal (by decide) false _
    (pushAll_reachable [1, 2, 3, 4] ReachableW.new)⟩
  exact (C3_chunk_count_minimal (by decide) true swapRemoveLeftover
    (ReachableW.swapOp 0 (pushAll_reachable [1, 2, 3, 4] ReachableW.new) heq)).1
